import Mathlib

/-!
# Verification of the DAFX_2_Daisy_lib spectral core

Shallow embedding of the spectral (FFT-based) subsystem of the library:
the fixed-size radix-2 FFT engine (`src/utility/fft_handler.h`), the phase
wrapping utility (`src/utility/princarg.h`), the phase vocoder's pitch-ratio
and grain-resampling state (`src/spectral/phase_vocoder.h`), the
whisperization/robotization grain effects (`src/spectral/whisperization.h`,
`src/spectral/robotization.h`), the spectral FIR filter
(`src/spectral/spectral_filter.h`) and the crosstalk canceller's per-bin
inverse-filter computation (`src/spatial/crosstalk_canceller.h`).

32-bit floats are modelled as real numbers, complex (re, im) float pairs as
`ℂ`; machine integer indices are `ℕ`.  The FFT size `N` is `2 ^ m`, mirroring
the `static_assert((N & (N-1)) == 0)` compile-time contract.
-/

noncomputable section

open Finset

namespace Daisysp

/-! ## Bit reversal (`FFTHandler::BitReverse`, fft_handler.h lines 315-322)

The source builds the reversed index with a loop over `bits` iterations:
`result = (result << 1) | (x & 1); x >>= 1`. -/

/-- Accumulator form of `BitReverse`: one loop iteration maps
`(x, result)` to `(x / 2, 2 * result + x % 2)`. -/
def bitRevAux : ℕ → ℕ → ℕ → ℕ
  | _, result, 0 => result
  | x, result, b + 1 => bitRevAux (x / 2) (2 * result + x % 2) b

/-- `BitReverse(x, bits)` from the source: reverse the low `bits` bits of `x`. -/
def bitReverse (bits x : ℕ) : ℕ := bitRevAux x 0 bits

/-- Recursive characterisation of bit reversal: the low bit of `x` becomes
the top bit of the result. -/
def rev : ℕ → ℕ → ℕ
  | 0, _ => 0
  | b + 1, x => rev b (x / 2) + x % 2 * 2 ^ b

theorem bitRevAux_eq (b : ℕ) : ∀ x r, bitRevAux x r b = r * 2 ^ b + rev b x := by
  induction b with
  | zero => intro x r; simp [bitRevAux, rev]
  | succ b ih =>
    intro x r
    rw [bitRevAux, ih, rev]
    ring

theorem bitReverse_eq_rev (bits x : ℕ) : bitReverse bits x = rev bits x := by
  rw [bitReverse, bitRevAux_eq]; ring

theorem rev_lt (b x : ℕ) : rev b x < 2 ^ b := by
  induction b generalizing x with
  | zero => simp [rev]
  | succ b ih =>
    have h1 : rev b (x / 2) < 2 ^ b := ih (x / 2)
    have h2 : x % 2 ≤ 1 := Nat.le_of_lt_succ (Nat.mod_lt x (by norm_num))
    have h3 : x % 2 * 2 ^ b ≤ 2 ^ b := by
      calc x % 2 * 2 ^ b ≤ 1 * 2 ^ b := Nat.mul_le_mul_right _ h2
      _ = 2 ^ b := one_mul _
    rw [rev, pow_succ]
    omega

theorem bitReverse_lt (bits x : ℕ) : bitReverse bits x < 2 ^ bits := by
  rw [bitReverse_eq_rev]; exact rev_lt bits x

theorem rev_two_mul (b x : ℕ) : rev (b + 1) (2 * x) = rev b x := by
  simp [rev, Nat.mul_div_cancel_left, Nat.mul_mod_right]

theorem rev_two_mul_add_one (b x : ℕ) : rev (b + 1) (2 * x + 1) = rev b x + 2 ^ b := by
  have h1 : (2 * x + 1) / 2 = x := by omega
  have h2 : (2 * x + 1) % 2 = 1 := by omega
  simp [rev, h1, h2]

theorem rev_high (b : ℕ) : ∀ c z, c < 2 → z < 2 ^ b →
    rev (b + 1) (2 ^ b * c + z) = 2 * rev b z + c := by
  induction b with
  | zero =>
    intro c z hc hz
    interval_cases z
    simp [rev]
    omega
  | succ b ih =>
    intro c z hc hz
    have hdiv : (2 ^ (b + 1) * c + z) / 2 = 2 ^ b * c + z / 2 := by
      have hA : 2 ^ (b + 1) * c + z = z + 2 * (2 ^ b * c) := by rw [pow_succ]; ring
      rw [hA, Nat.add_mul_div_left _ _ (by norm_num : 0 < 2), Nat.add_comm]
    have hmod : (2 ^ (b + 1) * c + z) % 2 = z % 2 := by
      have : 2 ∣ 2 ^ (b + 1) * c := ⟨2 ^ b * c, by ring⟩
      omega
    have hz2 : z / 2 < 2 ^ b := by
      have := Nat.pow_lt_pow_succ (a := 2) (n := b) (by norm_num)
      omega
    rw [rev, hdiv, hmod, ih c (z / 2) hc hz2, rev]
    ring

theorem rev_rev (b : ℕ) : ∀ x, x < 2 ^ b → rev b (rev b x) = x := by
  induction b with
  | zero => intro x hx; interval_cases x; simp [rev]
  | succ b ih =>
    intro x hx
    have hx2 : x / 2 < 2 ^ b := by
      have := Nat.pow_lt_pow_succ (a := 2) (n := b) (by norm_num)
      omega
    have hm : x % 2 < 2 := Nat.mod_lt x (by norm_num)
    have hr : rev b (x / 2) < 2 ^ b := rev_lt b (x / 2)
    have step1 : rev (b + 1) x = 2 ^ b * (x % 2) + rev b (x / 2) := by
      rw [rev]; ring
    rw [step1, rev_high b (x % 2) (rev b (x / 2)) hm hr, ih (x / 2) hx2]
    omega

/-- Bit reversal is an involution on `[0, 2^bits)`; hence writing
`buffer[bit_reverse_[i]] = input[i]` for every `i` (the source's copy-in
loop) and reading `buffer[j] = input[bit_reverse_[j]]` describe the same
buffer. -/
theorem bitReverse_bitReverse (bits x : ℕ) (h : x < 2 ^ bits) :
    bitReverse bits (bitReverse bits x) = x := by
  rw [bitReverse_eq_rev, bitReverse_eq_rev]
  exact rev_rev bits x h

/-! ## Twiddle factors (`FFTHandler::Init`, fft_handler.h lines 89-103)

`Init` precomputes `twiddle_[k] = (cos angle, sin angle)` with
`angle = -2π k / N`; as a complex number this is `exp(angle · I)`. -/

/-- Twiddle factor `exp(-2π k / N · I)`, the table entry computed by `Init`. -/
def twiddle (N k : ℕ) : ℂ :=
  Complex.exp (((-(2 * Real.pi * k / N) : ℝ) : ℂ) * Complex.I)

/-- The twiddle factor is exactly the (cos, sin) pair stored by `Init`. -/
theorem twiddle_def (N k : ℕ) :
    twiddle N k = ((Real.cos (-(2 * Real.pi * k / N)) : ℝ) : ℂ)
      + ((Real.sin (-(2 * Real.pi * k / N)) : ℝ) : ℂ) * Complex.I := by
  rw [twiddle, Complex.exp_mul_I, Complex.ofReal_cos, Complex.ofReal_sin]

theorem twiddle_zero (N : ℕ) : twiddle N 0 = 1 := by
  simp [twiddle]

theorem twiddle_add (N a b : ℕ) : twiddle N (a + b) = twiddle N a * twiddle N b := by
  rw [twiddle, twiddle, twiddle, ← Complex.exp_add]
  congr 1
  push_cast
  ring

theorem twiddle_pow (N a b : ℕ) : twiddle N (a * b) = twiddle N a ^ b := by
  induction b with
  | zero => simp [twiddle_zero]
  | succ b ih => rw [Nat.mul_succ, twiddle_add, ih, pow_succ]

/-- At half the table period the twiddle factor is `-1`:
`twiddle N (N/2) = exp(-π I) = -1` (for `N = 2^m`, `m ≥ 1`). -/
theorem twiddle_half (m : ℕ) (hm : 1 ≤ m) : twiddle (2 ^ m) (2 ^ (m - 1)) = -1 := by
  have hsplit : (2 : ℝ) ^ m = 2 * 2 ^ (m - 1) := by
    rw [← pow_succ']
    congr 1
    omega
  have hne : (2 : ℝ) ^ (m - 1) ≠ 0 := by positivity
  have harg : (-(2 * Real.pi * (2 ^ (m - 1) : ℕ) / (2 ^ m : ℕ)) : ℝ) = -Real.pi := by
    push_cast
    rw [hsplit]
    field_simp
    ring
  rw [twiddle, harg]
  have : ((-Real.pi : ℝ) : ℂ) * Complex.I = -(Real.pi * Complex.I) := by
    push_cast
    ring
  rw [this, Complex.exp_neg, Complex.exp_pi_mul_I]
  norm_num

theorem twiddle_mul_half (m u : ℕ) (hm : 1 ≤ m) :
    twiddle (2 ^ m) (u * 2 ^ (m - 1)) = (-1) ^ u := by
  rw [mul_comm, twiddle_pow, twiddle_half m hm]

/-- Twiddle factors have unit magnitude. -/
theorem abs_twiddle (N k : ℕ) : Complex.abs (twiddle N k) = 1 := by
  rw [twiddle]
  exact Complex.abs_exp_ofReal_mul_I _

/-! ## FFT core (`FFTHandler::FFTCore`, fft_handler.h lines 274-300)

Stage `s` (for `s = 0 .. log2 N - 1`) works on blocks of size `2^(s+1)`
with half-block `H = 2^s` and twiddle stride `N / 2^(s+1)`; the butterfly
writes `even + tw·odd` to the even slot and `even - tw·odd` to the odd slot.
Distinct butterflies read and write disjoint pairs of slots, so the in-place
loop is the pointwise simultaneous update below: index `n` with
`n % (2H) < H` is an even slot of its butterfly, otherwise the odd slot. -/

/-- One butterfly stage of `FFTCore` with half-block size `H`. -/
def fftStage (N H : ℕ) (tw : ℕ → ℂ) (f : ℕ → ℂ) : ℕ → ℂ := fun n =>
  if n % (2 * H) < H then
    f n + tw (n % (2 * H) * (N / (2 * H))) * f (n + H)
  else
    f (n - H) - tw ((n % (2 * H) - H) * (N / (2 * H))) * f n

/-- `FFTCore` after the first `s` stages (stage `j` uses half-block `2^j`). -/
def fftLoop (N : ℕ) (tw : ℕ → ℂ) : ℕ → (ℕ → ℂ) → ℕ → ℂ
  | 0, f => f
  | s + 1, f => fftStage N (2 ^ s) tw (fftLoop N tw s f)

/-- `FFTHandler::Forward` (lines 112-128): copy the real input into the
complex buffer in bit-reversed order, then run all `log2 N` stages with the
forward twiddle table.  `Forward m x n` is output bin `n` for `N = 2^m`. -/
def Forward (m : ℕ) (x : ℕ → ℝ) : ℕ → ℂ :=
  fftLoop (2 ^ m) (twiddle (2 ^ m)) m (fun j => ((x (bitReverse m j) : ℝ) : ℂ))

/-- `FFTCore(true)` conjugates every twiddle factor (line 288-290). -/
def twiddleInv (N : ℕ) : ℕ → ℂ := fun k => (starRingEnd ℂ) (twiddle N k)

/-- `FFTHandler::Inverse` (lines 155-172): copy the split re/im spectrum into
the complex buffer in bit-reversed order, run `FFTCore(true)` (conjugated
twiddles), and emit the real part scaled by `1/N`. -/
def Inverse (m : ℕ) (Xre Xim : ℕ → ℝ) : ℕ → ℝ := fun i =>
  (fftLoop (2 ^ m) (twiddleInv (2 ^ m)) m
      (fun j => ((Xre (bitReverse m j) : ℝ) : ℂ)
        + ((Xim (bitReverse m j) : ℝ) : ℂ) * Complex.I) i).re / 2 ^ m

/-! ## Correctness of `FFTCore`

The loop invariant: after `s` butterfly stages on the bit-reversed input,
each aligned block of length `2^s` holds the `2^s`-point transform of one
stride-`2^(m-s)` subsequence of the input. -/

theorem sum_range_even_odd (M : ℕ) (f : ℕ → ℂ) :
    ∑ u in range (2 * M), f u
      = ∑ v in range M, f (2 * v) + ∑ v in range M, f (2 * v + 1) := by
  induction M with
  | zero => simp
  | succ M ih =>
    have h2 : 2 * (M + 1) = 2 * M + 1 + 1 := by ring
    rw [h2, sum_range_succ, sum_range_succ, sum_range_succ, sum_range_succ, ih]
    ring

theorem fftLoop_sum (m : ℕ) (tw : ℕ → ℂ) (x : ℕ → ℂ)
    (hadd : ∀ a b, tw (a + b) = tw a * tw b)
    (h0 : tw 0 = 1)
    (hhalf : ∀ u, 1 ≤ m → tw (u * 2 ^ (m - 1)) = (-1) ^ u) :
    ∀ s, s ≤ m → ∀ b t, t < 2 ^ s → b < 2 ^ (m - s) →
      fftLoop (2 ^ m) tw s (fun j => x (bitReverse m j)) (b * 2 ^ s + t)
        = ∑ u in range (2 ^ s),
            x (2 ^ (m - s) * u + bitReverse (m - s) b) * tw (t * u * 2 ^ (m - s)) := by
  intro s
  induction s with
  | zero =>
    intro _ b t ht _
    interval_cases t
    simp [fftLoop, h0]
  | succ s ih =>
    intro hs b t ht hb
    have hsm : s ≤ m := by omega
    set k := m - (s + 1) with hk
    have hmsk : m - s = k + 1 := by omega
    have hsk : s + k = m - 1 := by omega
    have hm1 : 1 ≤ m := by omega
    have hb' : b < 2 ^ k := hb
    have hb1 : 2 * b < 2 ^ (m - s) := by
      rw [hmsk, pow_succ]
      omega
    have hb2 : 2 * b + 1 < 2 ^ (m - s) := by
      rw [hmsk, pow_succ]
      omega
    have hNdiv : 2 ^ m / (2 * 2 ^ s) = 2 ^ k := by
      rw [← pow_succ', Nat.pow_div hs (by norm_num)]
    have hrev0 : bitReverse (m - s) (2 * b) = bitReverse k b := by
      rw [bitReverse_eq_rev, bitReverse_eq_rev, hmsk, rev_two_mul]
    have hrev1 : bitReverse (m - s) (2 * b + 1) = bitReverse k b + 2 ^ k := by
      rw [bitReverse_eq_rev, bitReverse_eq_rev, hmsk, rev_two_mul_add_one]
    have hmod : (b * 2 ^ (s + 1) + t) % (2 * 2 ^ s) = t := by
      rw [← pow_succ', Nat.mul_add_mod' b (2 ^ (s + 1)) t]
      exact Nat.mod_eq_of_lt ht
    rw [fftLoop]
    simp only [fftStage, hmod, hNdiv]
    by_cases hts : t < 2 ^ s
    · rw [if_pos hts]
      have hn1 : b * 2 ^ (s + 1) + t = 2 * b * 2 ^ s + t := by
        rw [pow_succ]; ring
      have hn2 : b * 2 ^ (s + 1) + t + 2 ^ s = (2 * b + 1) * 2 ^ s + t := by
        rw [pow_succ]; ring
      have e1 : fftLoop (2 ^ m) tw s (fun j => x (bitReverse m j)) (b * 2 ^ (s + 1) + t)
          = ∑ v in range (2 ^ s),
              x (2 ^ (k + 1) * v + bitReverse k b) * tw (t * v * 2 ^ (k + 1)) := by
        rw [hn1, ih hsm (2 * b) t hts hb1]
        apply sum_congr rfl
        intro v _
        rw [hrev0, hmsk]
      have e2 : fftLoop (2 ^ m) tw s (fun j => x (bitReverse m j)) (b * 2 ^ (s + 1) + t + 2 ^ s)
          = ∑ v in range (2 ^ s),
              x (2 ^ (k + 1) * v + (bitReverse k b + 2 ^ k)) * tw (t * v * 2 ^ (k + 1)) := by
        rw [hn2, ih hsm (2 * b + 1) t hts hb2]
        apply sum_congr rfl
        intro v _
        rw [hrev1, hmsk]
      rw [e1, e2]
      rw [show (2 : ℕ) ^ (s + 1) = 2 * 2 ^ s from by rw [pow_succ']]
      rw [sum_range_even_odd (2 ^ s) (fun u => x (2 ^ k * u + bitReverse k b)
        * tw (t * u * 2 ^ k))]
      congr 1
      · apply sum_congr rfl
        intro v _
        have hidx : 2 ^ k * (2 * v) = 2 ^ (k + 1) * v := by
          rw [pow_succ]; ring
        have htw : t * (2 * v) * 2 ^ k = t * v * 2 ^ (k + 1) := by
          rw [pow_succ]; ring
        rw [hidx, htw]
      · rw [mul_sum]
        apply sum_congr rfl
        intro v _
        have hidx : 2 ^ k * (2 * v + 1) + bitReverse k b
            = 2 ^ (k + 1) * v + (bitReverse k b + 2 ^ k) := by
          rw [pow_succ]; ring
        have htw : t * (2 * v + 1) * 2 ^ k
            = t * v * 2 ^ (k + 1) + t * 2 ^ k := by
          rw [pow_succ]; ring
        rw [hidx, htw, hadd]
        ring
    · rw [if_neg hts]
      obtain ⟨t0, rfl⟩ : ∃ t0, t = 2 ^ s + t0 := ⟨t - 2 ^ s, by omega⟩
      have ht0 : t0 < 2 ^ s := by
        rw [pow_succ] at ht
        omega
      have hsub1 : b * 2 ^ (s + 1) + (2 ^ s + t0) - 2 ^ s = 2 * b * 2 ^ s + t0 := by
        have h1 : b * 2 ^ (s + 1) = 2 * b * 2 ^ s := by rw [pow_succ]; ring
        omega
      have hsub2 : 2 ^ s + t0 - 2 ^ s = t0 := by omega
      have hn3 : b * 2 ^ (s + 1) + (2 ^ s + t0) = (2 * b + 1) * 2 ^ s + t0 := by
        rw [pow_succ]; ring
      have e1 : fftLoop (2 ^ m) tw s (fun j => x (bitReverse m j))
            (b * 2 ^ (s + 1) + (2 ^ s + t0) - 2 ^ s)
          = ∑ v in range (2 ^ s),
              x (2 ^ (k + 1) * v + bitReverse k b) * tw (t0 * v * 2 ^ (k + 1)) := by
        rw [hsub1, ih hsm (2 * b) t0 ht0 hb1]
        apply sum_congr rfl
        intro v _
        rw [hrev0, hmsk]
      have e2 : fftLoop (2 ^ m) tw s (fun j => x (bitReverse m j))
            (b * 2 ^ (s + 1) + (2 ^ s + t0))
          = ∑ v in range (2 ^ s),
              x (2 ^ (k + 1) * v + (bitReverse k b + 2 ^ k)) * tw (t0 * v * 2 ^ (k + 1)) := by
        rw [hn3, ih hsm (2 * b + 1) t0 ht0 hb2]
        apply sum_congr rfl
        intro v _
        rw [hrev1, hmsk]
      rw [e1, e2, hsub2]
      rw [show (2 : ℕ) ^ (s + 1) = 2 * 2 ^ s from by rw [pow_succ']]
      rw [sum_range_even_odd (2 ^ s) (fun u => x (2 ^ k * u + bitReverse k b)
        * tw ((2 ^ s + t0) * u * 2 ^ k))]
      have hcross : (2 : ℕ) ^ s * 2 ^ k = 2 ^ (m - 1) := by
        rw [← pow_add, hsk]
      have heven : ∀ w, (2 ^ s + t0) * w * 2 ^ k
          = t0 * w * 2 ^ k + w * 2 ^ (m - 1) := by
        intro w
        calc (2 ^ s + t0) * w * 2 ^ k
            = t0 * w * 2 ^ k + w * (2 ^ s * 2 ^ k) := by ring
        _ = t0 * w * 2 ^ k + w * 2 ^ (m - 1) := by rw [hcross]
      have hdeComp : ∀ w, tw ((2 ^ s + t0) * w * 2 ^ k)
          = tw (t0 * w * 2 ^ k) * (-1) ^ w := by
        intro w
        rw [heven w, hadd, mul_comm w (2 ^ (m - 1))]
        rw [show (2 : ℕ) ^ (m - 1) * w = w * 2 ^ (m - 1) from by ring]
        rw [hhalf w hm1]
      have hEvenSum : ∑ v in range (2 ^ s),
            x (2 ^ k * (2 * v) + bitReverse k b) * tw ((2 ^ s + t0) * (2 * v) * 2 ^ k)
          = ∑ v in range (2 ^ s),
              x (2 ^ (k + 1) * v + bitReverse k b) * tw (t0 * v * 2 ^ (k + 1)) := by
        apply sum_congr rfl
        intro v _
        rw [hdeComp (2 * v)]
        have hpow1 : ((-1 : ℂ)) ^ (2 * v) = 1 := by
          rw [pow_mul]; norm_num
        have hidx : 2 ^ k * (2 * v) = 2 ^ (k + 1) * v := by
          rw [pow_succ]; ring
        have htw : t0 * (2 * v) * 2 ^ k = t0 * v * 2 ^ (k + 1) := by
          rw [pow_succ]; ring
        rw [hpow1, hidx, htw]
        ring
      have hOddSum : ∑ v in range (2 ^ s),
            x (2 ^ k * (2 * v + 1) + bitReverse k b) * tw ((2 ^ s + t0) * (2 * v + 1) * 2 ^ k)
          = -(tw (t0 * 2 ^ k) * ∑ v in range (2 ^ s),
              x (2 ^ (k + 1) * v + (bitReverse k b + 2 ^ k)) * tw (t0 * v * 2 ^ (k + 1))) := by
        rw [mul_sum, ← sum_neg_distrib]
        apply sum_congr rfl
        intro v _
        rw [hdeComp (2 * v + 1)]
        have hpow2 : ((-1 : ℂ)) ^ (2 * v + 1) = -1 := by
          rw [pow_succ, pow_mul]; norm_num
        have hidx : 2 ^ k * (2 * v + 1) + bitReverse k b
            = 2 ^ (k + 1) * v + (bitReverse k b + 2 ^ k) := by
          rw [pow_succ]; ring
        have htw : t0 * (2 * v + 1) * 2 ^ k
            = t0 * v * 2 ^ (k + 1) + t0 * 2 ^ k := by
          rw [pow_succ]; ring
        rw [hpow2, hidx, htw, hadd]
        ring
      rw [hEvenSum, hOddSum]
      ring

theorem twiddleInv_zero (N : ℕ) : twiddleInv N 0 = 1 := by
  simp [twiddleInv, twiddle_zero]

theorem twiddleInv_add (N a b : ℕ) :
    twiddleInv N (a + b) = twiddleInv N a * twiddleInv N b := by
  simp [twiddleInv, twiddle_add]

theorem twiddleInv_mul_half (m u : ℕ) (hm : 1 ≤ m) :
    twiddleInv (2 ^ m) (u * 2 ^ (m - 1)) = (-1) ^ u := by
  simp [twiddleInv, twiddle_mul_half m u hm]

theorem twiddleInv_pow (N a b : ℕ) : twiddleInv N (a * b) = twiddleInv N a ^ b := by
  simp [twiddleInv, twiddle_pow, map_pow]

/-- The inverse twiddle factor is `exp(+2π k / N · I)`. -/
theorem twiddleInv_def (N k : ℕ) :
    twiddleInv N k = Complex.exp (((2 * Real.pi * k / N : ℝ) : ℂ) * Complex.I) := by
  rw [twiddleInv, twiddle, ← Complex.exp_conj, map_mul, Complex.conj_ofReal,
    Complex.conj_I]
  congr 1
  push_cast
  ring

/-- `FFTCore` on a bit-reversed buffer computes the full transform with
character `tw`: bin `n` is `∑ u, y u · tw(n·u)`. -/
theorem fftLoop_dft (m : ℕ) (tw : ℕ → ℂ) (y : ℕ → ℂ)
    (hadd : ∀ a b, tw (a + b) = tw a * tw b)
    (h0 : tw 0 = 1)
    (hhalf : ∀ u, 1 ≤ m → tw (u * 2 ^ (m - 1)) = (-1) ^ u)
    (n : ℕ) (hn : n < 2 ^ m) :
    fftLoop (2 ^ m) tw m (fun j => y (bitReverse m j)) n
      = ∑ u in range (2 ^ m), y u * tw (n * u) := by
  have h := fftLoop_sum m tw y hadd h0 hhalf m le_rfl 0 n hn
    (by simp [Nat.sub_self])
  simp only [Nat.sub_self, zero_mul, zero_add, pow_zero, one_mul] at h
  rw [h]
  apply sum_congr rfl
  intro u _
  have : bitReverse 0 0 = 0 := by simp [bitReverse, bitRevAux]
  rw [this, Nat.add_zero, Nat.mul_one]

/-- `Forward` computes the unnormalized DFT with twiddle character
`exp(-2π n u / N · I)` at every bin `n < N`. -/
theorem Forward_eq_dft (m : ℕ) (x : ℕ → ℝ) (n : ℕ) (hn : n < 2 ^ m) :
    Forward m x n = ∑ u in range (2 ^ m), ((x u : ℝ) : ℂ) * twiddle (2 ^ m) (n * u) :=
  fftLoop_dft m (twiddle (2 ^ m)) (fun u => ((x u : ℝ) : ℂ))
    (twiddle_add (2 ^ m)) (twiddle_zero (2 ^ m))
    (fun u hm => twiddle_mul_half m u hm) n hn

/-- If `a` is a multiple of `M` strictly between `-M` and `M`, it is zero. -/
theorem eq_zero_of_lt_of_dvd_aux (M a : ℤ) (hM : 0 < M) (h1 : -M < a) (h2 : a < M)
    (h3 : ∃ z : ℤ, a = z * M) : a = 0 := by
  obtain ⟨z, rfl⟩ := h3
  rcases lt_trichotomy z 0 with hz | hz | hz
  · have : z ≤ -1 := by omega
    nlinarith
  · simp [hz]
  · have : 1 ≤ z := by omega
    nlinarith

set_option maxHeartbeats 800000 in
/-- Orthogonality of twiddle characters: for bins `l, n < N = 2^m`,
`∑ u (tw l · conj (tw n))^u` is `N` when `l = n` and `0` otherwise. -/
theorem sum_twiddle_orthogonal (m l n : ℕ) (hl : l < 2 ^ m) (hn : n < 2 ^ m) :
    ∑ u in range (2 ^ m), (twiddle (2 ^ m) l * twiddleInv (2 ^ m) n) ^ u
      = if l = n then ((2 ^ m : ℕ) : ℂ) else 0 := by
  by_cases heq : l = n
  · subst heq
    have hq : twiddle (2 ^ m) l * twiddleInv (2 ^ m) l = 1 := by
      rw [twiddleInv, Complex.mul_conj, Complex.normSq_eq_abs, abs_twiddle]
      norm_num
    simp [hq]
  · rw [if_neg heq]
    have hNpos : 0 < 2 ^ m := Nat.pos_pow_of_pos m (by norm_num)
    have hNne : ((2 ^ m : ℕ) : ℝ) ≠ 0 := by positivity
    have hNcne : ((2 ^ m : ℕ) : ℂ) ≠ 0 := by exact_mod_cast hNne
    set d : ℝ := 2 * Real.pi * ((n : ℝ) - (l : ℝ)) / ((2 ^ m : ℕ) : ℝ) with hd
    have hq : twiddle (2 ^ m) l * twiddleInv (2 ^ m) n
        = Complex.exp (((d : ℝ) : ℂ) * Complex.I) := by
      rw [twiddle, twiddleInv_def, ← Complex.exp_add, ← add_mul]
      congr 2
      rw [hd]
      push_cast
      field_simp
      ring
    have hqn : (twiddle (2 ^ m) l * twiddleInv (2 ^ m) n) ^ (2 ^ m) = 1 := by
      rw [hq, ← Complex.exp_nat_mul]
      have hreal : ((2 ^ m : ℕ) : ℝ) * d = 2 * Real.pi * ((n : ℝ) - (l : ℝ)) := by
        rw [hd]
        field_simp
      have harg : ((2 ^ m : ℕ) : ℂ) * (((d : ℝ) : ℂ) * Complex.I)
          = (((n : ℤ) - (l : ℤ)) : ℂ) * (2 * ((Real.pi : ℝ) : ℂ) * Complex.I) := by
        calc ((2 ^ m : ℕ) : ℂ) * (((d : ℝ) : ℂ) * Complex.I)
            = ((((2 ^ m : ℕ) : ℝ) * d : ℝ) : ℂ) * Complex.I := by push_cast; ring
        _ = (((2 * Real.pi * ((n : ℝ) - (l : ℝ)) : ℝ)) : ℂ) * Complex.I := by rw [hreal]
        _ = (((n : ℤ) - (l : ℤ)) : ℂ) * (2 * ((Real.pi : ℝ) : ℂ) * Complex.I) := by
              push_cast; ring
      rw [harg]
      exact_mod_cast Complex.exp_int_mul_two_pi_mul_I ((n : ℤ) - (l : ℤ))
    have hq1 : twiddle (2 ^ m) l * twiddleInv (2 ^ m) n ≠ 1 := by
      rw [hq]
      intro habs
      rw [Complex.exp_eq_one_iff] at habs
      obtain ⟨z, hz⟩ := habs
      have h3 : ((d : ℝ) : ℂ) = (z : ℂ) * (2 * ((Real.pi : ℝ) : ℂ)) := by
        have h4 := congrArg (fun w => w * -Complex.I) hz
        simp only [mul_assoc] at h4
        simpa [Complex.I_mul_I] using h4
      have h5 : d = (z : ℝ) * (2 * Real.pi) := by exact_mod_cast h3
      have hpi : (0 : ℝ) < Real.pi := Real.pi_pos
      have h6 : (n : ℝ) - (l : ℝ) = (z : ℝ) * (2 : ℝ) ^ m := by
        rw [hd] at h5
        push_cast at h5
        have hNR : (0 : ℝ) < (2 : ℝ) ^ m := by positivity
        field_simp at h5
        nlinarith [h5, hpi]
      have h7 : (n : ℤ) - (l : ℤ) = z * (2 : ℤ) ^ m := by exact_mod_cast h6
      have hlz : (l : ℤ) < (2 : ℤ) ^ m := by exact_mod_cast hl
      have hnz : (n : ℤ) < (2 : ℤ) ^ m := by exact_mod_cast hn
      have h8 : (n : ℤ) - (l : ℤ) = 0 :=
        eq_zero_of_lt_of_dvd_aux ((2 : ℤ) ^ m) ((n : ℤ) - (l : ℤ))
          (by positivity) (by omega) (by omega) ⟨z, h7⟩
      exact heq (by omega)
    rw [geom_sum_eq hq1, hqn]
    simp

/-- Round trip: `Inverse` applied to the split re/im output of `Forward`
returns the input exactly (the forward transform is unnormalized, the
inverse applies the `1/N` scale). -/
theorem Inverse_Forward (m : ℕ) (x : ℕ → ℝ) (n : ℕ) (hn : n < 2 ^ m) :
    Inverse m (fun k => (Forward m x k).re) (fun k => (Forward m x k).im) n = x n := by
  have hbuf : (fun j => (((Forward m x (bitReverse m j)).re : ℝ) : ℂ)
        + (((Forward m x (bitReverse m j)).im : ℝ) : ℂ) * Complex.I)
      = fun j => Forward m x (bitReverse m j) := by
    funext j
    exact Complex.re_add_im _
  rw [Inverse, hbuf, fftLoop_dft m (twiddleInv (2 ^ m)) (Forward m x)
    (twiddleInv_add (2 ^ m)) (twiddleInv_zero (2 ^ m))
    (fun u hm => twiddleInv_mul_half m u hm) n hn]
  have hsum : ∑ u in range (2 ^ m), Forward m x u * twiddleInv (2 ^ m) (n * u)
      = ((x n : ℝ) : ℂ) * ((2 ^ m : ℕ) : ℂ) := by
    calc ∑ u in range (2 ^ m), Forward m x u * twiddleInv (2 ^ m) (n * u)
        = ∑ u in range (2 ^ m), ∑ l in range (2 ^ m),
            ((x l : ℝ) : ℂ) * ((twiddle (2 ^ m) l * twiddleInv (2 ^ m) n) ^ u) := by
          apply sum_congr rfl
          intro u hu
          rw [Forward_eq_dft m x u (mem_range.mp hu), sum_mul]
          apply sum_congr rfl
          intro l _
          rw [mul_comm u l, twiddle_pow, twiddleInv_pow, mul_pow]
          ring
    _ = ∑ l in range (2 ^ m), ((x l : ℝ) : ℂ)
          * ∑ u in range (2 ^ m), (twiddle (2 ^ m) l * twiddleInv (2 ^ m) n) ^ u := by
          rw [sum_comm]
          apply sum_congr rfl
          intro l _
          rw [mul_sum]
    _ = ∑ l in range (2 ^ m), ((x l : ℝ) : ℂ)
          * (if l = n then ((2 ^ m : ℕ) : ℂ) else 0) := by
          apply sum_congr rfl
          intro l hl
          rw [sum_twiddle_orthogonal m l n (mem_range.mp hl) hn]
    _ = ((x n : ℝ) : ℂ) * ((2 ^ m : ℕ) : ℂ) := by
          simp only [mul_ite, mul_zero]
          rw [sum_ite_eq' (range (2 ^ m)) n fun l => ((x l : ℝ) : ℂ) * ((2 ^ m : ℕ) : ℂ)]
          simp [mem_range.mpr hn]
  rw [hsum]
  have hre : (((x n : ℝ) : ℂ) * ((2 ^ m : ℕ) : ℂ)).re = x n * 2 ^ m := by
    rw [show ((2 ^ m : ℕ) : ℂ) = (((2 ^ m : ℕ) : ℝ) : ℂ) from by push_cast; ring,
      ← Complex.ofReal_mul, Complex.ofReal_re]
    push_cast
    ring
  rw [hre]
  have hne : ((2 : ℝ) ^ m) ≠ 0 := by positivity
  field_simp

/-- Bin 0 of the forward transform is the sum of the input samples. -/
theorem Forward_dc (m : ℕ) (x : ℕ → ℝ) :
    Forward m x 0 = ((∑ j in range (2 ^ m), x j : ℝ) : ℂ) := by
  rw [Forward_eq_dft m x 0 (Nat.pos_pow_of_pos m (by norm_num))]
  push_cast
  apply sum_congr rfl
  intro u _
  rw [zero_mul, twiddle_zero, mul_one]

/-- For the all-ones input every non-DC bin vanishes. -/
theorem Forward_ones_ac (m n : ℕ) (hn0 : 0 < n) (hn : n < 2 ^ m) :
    Forward m (fun _ => (1 : ℝ)) n = 0 := by
  rw [Forward_eq_dft m _ n hn]
  have hterm : ∀ u ∈ range (2 ^ m),
      (((1 : ℝ) : ℂ)) * twiddle (2 ^ m) (n * u)
        = (twiddle (2 ^ m) n * twiddleInv (2 ^ m) 0) ^ u := by
    intro u _
    rw [twiddleInv_zero, mul_one, twiddle_pow, Complex.ofReal_one, one_mul]
  rw [sum_congr rfl hterm,
    sum_twiddle_orthogonal m n 0 hn (Nat.pos_pow_of_pos m (by norm_num)),
    if_neg (by omega)]

/-- The unit impulse at index 0 transforms to a flat all-ones spectrum. -/
theorem Forward_delta (m n : ℕ) (hn : n < 2 ^ m) :
    Forward m (fun i => if i = 0 then (1 : ℝ) else 0) n = 1 := by
  rw [Forward_eq_dft _ _ n hn]
  have hterm : ∀ u ∈ range (2 ^ m),
      (((if u = 0 then (1 : ℝ) else 0) : ℝ) : ℂ) * twiddle (2 ^ m) (n * u)
        = if u = 0 then (1 : ℂ) else 0 := by
    intro u _
    by_cases hu : u = 0
    · simp [hu, twiddle_zero]
    · simp [hu]
  rw [sum_congr rfl hterm, sum_ite_eq' (range (2 ^ m)) 0 fun _ => (1 : ℂ),
    if_pos (mem_range.mpr (by positivity))]

/-- An all-zero buffer stays zero through every butterfly stage. -/
theorem fftLoop_zero (N : ℕ) (tw : ℕ → ℂ) (s : ℕ) (g : ℕ → ℂ) (hg : ∀ j, g j = 0) :
    ∀ n, fftLoop N tw s g n = 0 := by
  induction s with
  | zero => exact hg
  | succ s ih =>
    intro n
    rw [fftLoop]
    unfold fftStage
    by_cases h : n % (2 * 2 ^ s) < 2 ^ s <;> simp [h, ih]

theorem Forward_zero (m : ℕ) (x : ℕ → ℝ) (hx : ∀ j, x j = 0) (n : ℕ) :
    Forward m x n = 0 := by
  apply fftLoop_zero
  intro j
  rw [hx]
  norm_num

theorem Inverse_zero (m : ℕ) (Xre Xim : ℕ → ℝ)
    (h : ∀ k, Xre k = 0 ∧ Xim k = 0) (n : ℕ) : Inverse m Xre Xim n = 0 := by
  unfold Inverse
  rw [fftLoop_zero]
  · simp
  · intro j
    rw [(h _).1, (h _).2]
    norm_num

/-- `Forward` reads the input only at indices below `N` (the source array
has exactly `N` entries). -/
theorem Forward_congr (m : ℕ) (x y : ℕ → ℝ) (h : ∀ j < 2 ^ m, x j = y j) :
    Forward m x = Forward m y := by
  unfold Forward
  have hbuf : (fun j => ((x (bitReverse m j) : ℝ) : ℂ))
      = fun j => ((y (bitReverse m j) : ℝ) : ℂ) := by
    funext j
    rw [h _ (bitReverse_lt m j)]
  rw [hbuf]

/-- `Inverse` reads the spectrum only at indices below `N`. -/
theorem Inverse_congr (m : ℕ) (Xre Xim Yre Yim : ℕ → ℝ)
    (h : ∀ k < 2 ^ m, Xre k = Yre k ∧ Xim k = Yim k) :
    Inverse m Xre Xim = Inverse m Yre Yim := by
  unfold Inverse
  have hbuf : (fun j => ((Xre (bitReverse m j) : ℝ) : ℂ)
        + ((Xim (bitReverse m j) : ℝ) : ℂ) * Complex.I)
      = fun j => ((Yre (bitReverse m j) : ℝ) : ℂ)
        + ((Yim (bitReverse m j) : ℝ) : ℂ) * Complex.I := by
    funext j
    rw [(h _ (bitReverse_lt m j)).1, (h _ (bitReverse_lt m j)).2]
  rw [hbuf]

/-- Every butterfly stage at most doubles the sup-norm of the buffer. -/
theorem fftLoop_bound (N : ℕ) (tw : ℕ → ℂ) (htw : ∀ k, Complex.abs (tw k) = 1)
    (s : ℕ) (g : ℕ → ℂ) (C : ℝ) (hg : ∀ j, Complex.abs (g j) ≤ C) :
    ∀ n, Complex.abs (fftLoop N tw s g n) ≤ 2 ^ s * C := by
  induction s with
  | zero =>
    intro n
    simpa using hg n
  | succ s ih =>
    intro n
    rw [fftLoop]
    unfold fftStage
    by_cases h : n % (2 * 2 ^ s) < 2 ^ s
    · rw [if_pos h]
      calc Complex.abs (fftLoop N tw s g n
              + tw (n % (2 * 2 ^ s) * (N / (2 * 2 ^ s))) * fftLoop N tw s g (n + 2 ^ s))
          ≤ Complex.abs (fftLoop N tw s g n)
            + Complex.abs (tw (n % (2 * 2 ^ s) * (N / (2 * 2 ^ s)))
                * fftLoop N tw s g (n + 2 ^ s)) := Complex.abs.add_le _ _
      _ = Complex.abs (fftLoop N tw s g n)
            + Complex.abs (fftLoop N tw s g (n + 2 ^ s)) := by
            rw [map_mul, htw, one_mul]
      _ ≤ 2 ^ s * C + 2 ^ s * C := add_le_add (ih n) (ih (n + 2 ^ s))
      _ = 2 ^ (s + 1) * C := by ring
    · rw [if_neg h]
      calc Complex.abs (fftLoop N tw s g (n - 2 ^ s)
              - tw ((n % (2 * 2 ^ s) - 2 ^ s) * (N / (2 * 2 ^ s))) * fftLoop N tw s g n)
          ≤ Complex.abs (fftLoop N tw s g (n - 2 ^ s))
            + Complex.abs (tw ((n % (2 * 2 ^ s) - 2 ^ s) * (N / (2 * 2 ^ s)))
                * fftLoop N tw s g n) := Complex.abs.sub_le_add _ _
      _ = Complex.abs (fftLoop N tw s g (n - 2 ^ s))
            + Complex.abs (fftLoop N tw s g n) := by
            rw [map_mul, htw, one_mul]
      _ ≤ 2 ^ s * C + 2 ^ s * C := add_le_add (ih (n - 2 ^ s)) (ih n)
      _ = 2 ^ (s + 1) * C := by ring

theorem abs_twiddleInv (N k : ℕ) : Complex.abs (twiddleInv N k) = 1 := by
  rw [twiddleInv, Complex.abs_conj, abs_twiddle]

/-- The forward transform of a bounded input is bounded by `N` times the
input bound. -/
theorem Forward_bound (m : ℕ) (x : ℕ → ℝ) (C : ℝ) (hx : ∀ j, |x j| ≤ C) (n : ℕ) :
    Complex.abs (Forward m x n) ≤ 2 ^ m * C := by
  apply fftLoop_bound _ _ (abs_twiddle (2 ^ m))
  intro j
  rw [Complex.abs_ofReal]
  exact hx _

/-- The normalized inverse transform of a bounded spectrum is bounded by the
spectrum bound. -/
theorem Inverse_bound (m : ℕ) (Xre Xim : ℕ → ℝ) (C : ℝ)
    (h : ∀ k, Complex.abs (((Xre k : ℝ) : ℂ) + ((Xim k : ℝ) : ℂ) * Complex.I) ≤ C)
    (n : ℕ) : |Inverse m Xre Xim n| ≤ C := by
  unfold Inverse
  have hloop := fftLoop_bound (2 ^ m) (twiddleInv (2 ^ m)) (abs_twiddleInv (2 ^ m)) m
    (fun j => ((Xre (bitReverse m j) : ℝ) : ℂ) + ((Xim (bitReverse m j) : ℝ) : ℂ) * Complex.I)
    C (fun j => h _) n
  have hre := Complex.abs_re_le_abs (fftLoop (2 ^ m) (twiddleInv (2 ^ m)) m
    (fun j => ((Xre (bitReverse m j) : ℝ) : ℂ) + ((Xim (bitReverse m j) : ℝ) : ℂ) * Complex.I) n)
  have hpow : (0 : ℝ) < 2 ^ m := by positivity
  rw [abs_div, abs_of_pos hpow]
  rw [div_le_iff₀ hpow]
  calc |(fftLoop (2 ^ m) (twiddleInv (2 ^ m)) m
          (fun j => ((Xre (bitReverse m j) : ℝ) : ℂ)
            + ((Xim (bitReverse m j) : ℝ) : ℂ) * Complex.I) n).re|
      ≤ Complex.abs (fftLoop (2 ^ m) (twiddleInv (2 ^ m)) m
          (fun j => ((Xre (bitReverse m j) : ℝ) : ℂ)
            + ((Xim (bitReverse m j) : ℝ) : ℂ) * Complex.I) n) := hre
  _ ≤ 2 ^ m * C := hloop
  _ = C * 2 ^ m := by ring

/-! ## Claims C1 and C8 -/

/-- C1: for every real input vector `x` of length `N = 2^m`, the FFT round
trip `Inverse(Forward(x))` returns `x` exactly in real arithmetic (the
forward transform is unnormalized, the inverse applies the `1/N` scale);
the `1e-4` float tolerance is met with equality. -/
theorem claim_C1_fft_roundtrip (m : ℕ) (x : ℕ → ℝ) (n : ℕ) (hn : n < 2 ^ m) :
    Inverse m (fun k => (Forward m x k).re) (fun k => (Forward m x k).im) n = x n :=
  Inverse_Forward m x n hn

theorem claim_C1_fft_roundtrip_witness :
    (1 < 2 ^ 1) ∧ Inverse 1 (fun k => (Forward 1 (fun j => (j : ℝ)) k).re)
      (fun k => (Forward 1 (fun j => (j : ℝ)) k).im) 1 = ((1 : ℕ) : ℝ) :=
  ⟨by norm_num, claim_C1_fft_roundtrip 1 (fun j => (j : ℝ)) 1 (by norm_num)⟩

/-- C8: bin 0 of the forward FFT is the sum of the input samples with zero
imaginary part; the all-ones input of length `N = 2^m` transforms to
`real[0] = N`, `imag[0] = 0`, and all other bins exactly `0`. -/
theorem claim_C8_dc_bin (m : ℕ) (x : ℕ → ℝ) :
    (Forward m x 0).re = (∑ j in range (2 ^ m), x j)
    ∧ (Forward m x 0).im = 0
    ∧ Forward m (fun _ => (1 : ℝ)) 0 = ((2 ^ m : ℕ) : ℂ)
    ∧ ∀ n, 0 < n → n < 2 ^ m → Forward m (fun _ => (1 : ℝ)) n = 0 := by
  refine ⟨?_, ?_, ?_, fun n hn0 hn => Forward_ones_ac m n hn0 hn⟩
  · rw [Forward_dc, Complex.ofReal_re]
  · rw [Forward_dc, Complex.ofReal_im]
  · rw [Forward_dc]
    push_cast
    simp

theorem claim_C8_dc_bin_witness :
    (Forward 1 (fun j => (j : ℝ)) 0).re = (∑ j in range (2 ^ 1), (j : ℝ))
    ∧ (Forward 1 (fun j => (j : ℝ)) 0).im = 0
    ∧ (0 < 1 ∧ 1 < 2 ^ 1 ∧ Forward 1 (fun _ => (1 : ℝ)) 1 = 0) := by
  have h := claim_C8_dc_bin 1 (fun j => (j : ℝ))
  exact ⟨h.1, h.2.1, by norm_num,
    by norm_num, (claim_C8_dc_bin 1 (fun j => (j : ℝ))).2.2.2 1 (by norm_num) (by norm_num)⟩

/-! ## Phase wrapping (`Princarg`, princarg.h lines 38-45)

`Princarg(phase_in)` returns `phase_in - 2π * floor((phase_in + π) / 2π)`. -/

/-- `Princarg` from `princarg.h`: wrap a phase into the principal range. -/
def Princarg (phase_in : ℝ) : ℝ :=
  phase_in - 2 * Real.pi * (⌊(phase_in + Real.pi) / (2 * Real.pi)⌋ : ℤ)

/-- `PhaseDiff` from `princarg.h` lines 69-71. -/
def PhaseDiff (phase1 phase2 : ℝ) : ℝ := Princarg (phase1 - phase2)

theorem Princarg_eq_fract (phi : ℝ) :
    Princarg phi = 2 * Real.pi * Int.fract ((phi + Real.pi) / (2 * Real.pi)) - Real.pi := by
  have hpi : (0 : ℝ) < 2 * Real.pi := by positivity
  rw [Princarg, Int.fract]
  field_simp
  ring

theorem Princarg_lower (phi : ℝ) : -Real.pi ≤ Princarg phi := by
  have hpi : (0 : ℝ) < 2 * Real.pi := by positivity
  have hf : 0 ≤ Int.fract ((phi + Real.pi) / (2 * Real.pi)) := Int.fract_nonneg _
  rw [Princarg_eq_fract]
  nlinarith

theorem Princarg_upper (phi : ℝ) : Princarg phi < Real.pi := by
  have hpi : (0 : ℝ) < 2 * Real.pi := by positivity
  have hf : Int.fract ((phi + Real.pi) / (2 * Real.pi)) < 1 := Int.fract_lt_one _
  rw [Princarg_eq_fract]
  nlinarith

theorem Princarg_idem (phi : ℝ) : Princarg (Princarg phi) = Princarg phi := by
  have hpi : (0 : ℝ) < 2 * Real.pi := by positivity
  have h1 := Princarg_lower phi
  have h2 := Princarg_upper phi
  have hfloor : ⌊(Princarg phi + Real.pi) / (2 * Real.pi)⌋ = 0 := by
    rw [Int.floor_eq_zero_iff]
    constructor
    · have : 0 ≤ Princarg phi + Real.pi := by linarith
      positivity
    · rw [div_lt_one hpi]
      linarith
  rw [Princarg, hfloor]
  push_cast
  ring

/-! ## Claim C4 -/

/-- C4: `Princarg(φ)` computes exactly `φ - 2π·floor((φ+π)/2π)`; the result
lies in `[-π, π)` — i.e. in the principal range `(-π, π]` up to the single
boundary point (the source's float boundary-tolerance caveat at `±π`) — and
`Princarg` is idempotent: `Princarg(Princarg(φ)) = Princarg(φ)`. -/
theorem claim_C4_princarg (phi : ℝ) :
    Princarg phi = phi - 2 * Real.pi * (⌊(phi + Real.pi) / (2 * Real.pi)⌋ : ℤ)
    ∧ -Real.pi ≤ Princarg phi ∧ Princarg phi < Real.pi
    ∧ Princarg (Princarg phi) = Princarg phi :=
  ⟨rfl, Princarg_lower phi, Princarg_upper phi, Princarg_idem phi⟩

/-! ## Phase vocoder pitch-ratio state (`phase_vocoder.h`)

Model of the pitch-ratio/grain-resampling state touched by `SetPitchRatio`
(lines 96-107), `GetPitchRatio` (line 112), `UpdateInterpolationParams`
(lines 208-227) and the grain resampling loop in `ProcessFrame`
(lines 288-293).  `float → size_t` casts truncate toward zero, i.e.
`Int.toNat ∘ Int.floor` on the nonnegative reals involved. -/

structure PVState (N : ℕ) where
  pitchRatio : ℝ
  grainLength : ℕ
  interpX : ℕ → ℝ
  interpIdx0 : ℕ → ℕ
  interpIdx1 : ℕ → ℕ
  interpFrac : ℕ → ℝ

/-- `grain_length_ = size_t(FFT_SIZE / pitch_ratio)`, capped at `FFT_SIZE`
(lines 210-213). -/
def pvGrainLength (N : ℕ) (ratio : ℝ) : ℕ :=
  min (Int.toNat ⌊(N : ℝ) / ratio⌋) N

/-- `UpdateInterpolationParams` (lines 208-227): recompute `grain_length_`
and, for `i < grain_length_`, the per-sample interpolation position
`x = i·N/grain_length`, indices `idx0 = size_t(x)`,
`idx1 = min(idx0+1, N-1)` and fraction `x - idx0`.  Entries at
`i ≥ grain_length_` are left untouched by the loop. -/
def updateInterpolationParams (N : ℕ) (st : PVState N) : PVState N :=
  let gl := pvGrainLength N st.pitchRatio
  { st with
    grainLength := gl
    interpX := fun i => if i < gl then (i : ℝ) * N / gl else st.interpX i
    interpIdx0 := fun i =>
      if i < gl then Int.toNat ⌊(i : ℝ) * N / (gl : ℝ)⌋ else st.interpIdx0 i
    interpIdx1 := fun i =>
      if i < gl then
        (if Int.toNat ⌊(i : ℝ) * N / (gl : ℝ)⌋ + 1 ≥ N then N - 1
         else Int.toNat ⌊(i : ℝ) * N / (gl : ℝ)⌋ + 1)
      else st.interpIdx1 i
    interpFrac := fun i =>
      if i < gl then (i : ℝ) * N / gl - ((Int.toNat ⌊(i : ℝ) * N / (gl : ℝ)⌋ : ℕ) : ℝ)
      else st.interpFrac i }

/-- `SetPitchRatio` (lines 96-107): clamp to `[0.5, 2.0]`, then update the
ratio and recompute the interpolation parameters only when it changed. -/
def setPitchRatio (N : ℕ) (st : PVState N) (ratio : ℝ) : PVState N :=
  let r1 := if ratio < 0.5 then (0.5 : ℝ) else ratio
  let r2 := if r1 > 2.0 then (2.0 : ℝ) else r1
  if r2 ≠ st.pitchRatio then
    updateInterpolationParams N { st with pitchRatio := r2 }
  else st

/-- `GetPitchRatio` (line 112). -/
def getPitchRatio {N : ℕ} (st : PVState N) : ℝ := st.pitchRatio

/-- The grain-resampling loop of `ProcessFrame` (lines 288-293):
`grain_buffer_[i] = time[idx0]·(1-frac) + time[idx1]·frac`. -/
def resampleGrain (N : ℕ) (st : PVState N) (time : ℕ → ℝ) : ℕ → ℝ := fun i =>
  time (st.interpIdx0 i) * (1 - st.interpFrac i)
    + time (st.interpIdx1 i) * st.interpFrac i

/-- `Init` (lines 61-89): ratio `1.0`, cleared buffers, then
`UpdateInterpolationParams`. -/
def pvInit (N : ℕ) : PVState N :=
  updateInterpolationParams N
    { pitchRatio := 1
      grainLength := 0
      interpX := fun _ => 0
      interpIdx0 := fun _ => 0
      interpIdx1 := fun _ => 0
      interpFrac := fun _ => 0 }

theorem setPitchRatio_ratio (N : ℕ) (st : PVState N) (ratio : ℝ) :
    getPitchRatio (setPitchRatio N st ratio) = min (max ratio 0.5) 2 := by
  unfold setPitchRatio getPitchRatio
  simp only [show (2.0 : ℝ) = 2 from by norm_num]
  by_cases h1 : ratio < 0.5
  · have hmax : max ratio 0.5 = 0.5 := max_eq_right h1.le
    have h2 : ¬((0.5 : ℝ) > 2) := by norm_num
    have hmin : min (0.5 : ℝ) 2 = 0.5 := by norm_num
    simp only [if_pos h1, if_neg h2, hmax, hmin]
    by_cases hne : (0.5 : ℝ) ≠ st.pitchRatio
    · simp [hne, updateInterpolationParams]
    · push_neg at hne
      simp [hne]
  · push_neg at h1
    have hmax : max ratio 0.5 = ratio := max_eq_left h1
    simp only [if_neg (not_lt.mpr h1), hmax]
    by_cases h2 : ratio > 2
    · have hmin : min ratio 2 = 2 := min_eq_right h2.le
      simp only [if_pos h2, hmin]
      by_cases hne : (2 : ℝ) ≠ st.pitchRatio
      · simp [hne, updateInterpolationParams]
      · push_neg at hne
        simp [hne]
    · push_neg at h2
      have hmin : min ratio 2 = ratio := min_eq_left h2
      simp only [if_neg (not_lt.mpr h2), hmin]
      by_cases hne : ratio ≠ st.pitchRatio
      · simp [hne, updateInterpolationParams]
      · push_neg at hne
        simp [hne]

/-! ## Claim C9 -/

/-- C9: `SetPitchRatio` clamps its argument to `[0.5, 2.0]` and never
errors: after `SetPitchRatio(r)`, `GetPitchRatio` returns
`min(max(r, 0.5), 2.0)`; in particular `0.3 ↦ 0.5` and `3.0 ↦ 2.0`. -/
theorem claim_C9_pitch_clamp (N : ℕ) (st : PVState N) (ratio : ℝ) :
    getPitchRatio (setPitchRatio N st ratio) = min (max ratio 0.5) 2
    ∧ getPitchRatio (setPitchRatio N st 0.3) = 0.5
    ∧ getPitchRatio (setPitchRatio N st 3.0) = 2.0 := by
  refine ⟨setPitchRatio_ratio N st ratio, ?_, ?_⟩
  · rw [setPitchRatio_ratio]
    norm_num
  · rw [setPitchRatio_ratio]
    norm_num

/-! ## Claim C5 -/

/-- C5 counterexample: with `FFT_SIZE = 8` and pitch ratio `0.5` (inside the
clamped range), the code's grain length is `8` — capped at `FFT_SIZE` by
`UpdateInterpolationParams` — not `N / pitch_ratio = 16` as the claim
states. -/
theorem claim_C5_counterexample :
    (setPitchRatio 8 (pvInit 8) 0.5).grainLength = 8
    ∧ getPitchRatio (setPitchRatio 8 (pvInit 8) 0.5) = 0.5
    ∧ (8 : ℝ) / (0.5 : ℝ) = 16
    ∧ (8 : ℕ) ≠ 16 := by
  have hratio : (pvInit 8).pitchRatio = 1 := rfl
  have hne : (0.5 : ℝ) ≠ (pvInit 8).pitchRatio := by
    rw [hratio]; norm_num
  have hr1 : ¬ ((0.5 : ℝ) < 0.5) := by norm_num
  have hr2 : ¬ ((0.5 : ℝ) > 2.0) := by norm_num
  have hgl : pvGrainLength 8 0.5 = 8 := by
    unfold pvGrainLength
    have hdiv : ((8 : ℕ) : ℝ) / (0.5 : ℝ) = 16 := by norm_num
    rw [hdiv]
    norm_num
  refine ⟨?_, ?_, by norm_num, by norm_num⟩
  · simp only [setPitchRatio, if_neg hr1, if_neg hr2, if_pos hne]
    exact hgl
  · rw [setPitchRatio_ratio]
    norm_num

/-- C5 (amended): for every pitch ratio `r` in the clamped range
`[0.5, 2.0]`, `SetPitchRatio(r)` installs `r`; whenever the ratio actually
changes, the interpolation parameters are recomputed: the grain length
becomes `min(⌊N / r⌋, N)` (i.e. `N / pitch_ratio` truncated to an integer
and capped at `N` — the upward resampling for ratios below 1 is capped at
the `N`-sample grain buffer), and for each `i < grain_length` the
precomputed linear-interpolation data is `x = i·N/grain_length`,
`idx0 = ⌊x⌋`, `idx1 = min(idx0+1, N-1)`, `frac = x - idx0`; when the
clamped ratio equals the current one, nothing is recomputed and the state
is unchanged; `ProcessFrame` resamples the synthesis grain by
`grain[i] = time[idx0]·(1-frac) + time[idx1]·frac` using these
precomputed values. -/
theorem claim_C5_grain_resample (N : ℕ) (st : PVState N) (r : ℝ)
    (hlo : 0.5 ≤ r) (hhi : r ≤ 2) :
    getPitchRatio (setPitchRatio N st r) = r
    ∧ (r ≠ st.pitchRatio →
        (setPitchRatio N st r).grainLength = min (Int.toNat ⌊(N : ℝ) / r⌋) N
        ∧ ∀ i, i < (setPitchRatio N st r).grainLength →
            (setPitchRatio N st r).interpX i
                = (i : ℝ) * N / ((setPitchRatio N st r).grainLength : ℝ)
            ∧ (setPitchRatio N st r).interpIdx0 i
                = Int.toNat ⌊(i : ℝ) * N / (((setPitchRatio N st r).grainLength : ℕ) : ℝ)⌋
            ∧ (setPitchRatio N st r).interpIdx1 i
                = (if (setPitchRatio N st r).interpIdx0 i + 1 ≥ N then N - 1
                   else (setPitchRatio N st r).interpIdx0 i + 1)
            ∧ (setPitchRatio N st r).interpFrac i
                = (setPitchRatio N st r).interpX i
                  - (((setPitchRatio N st r).interpIdx0 i : ℕ) : ℝ))
    ∧ (r = st.pitchRatio → setPitchRatio N st r = st)
    ∧ ∀ time : ℕ → ℝ, ∀ i, resampleGrain N (setPitchRatio N st r) time i
        = time ((setPitchRatio N st r).interpIdx0 i)
            * (1 - (setPitchRatio N st r).interpFrac i)
          + time ((setPitchRatio N st r).interpIdx1 i)
            * (setPitchRatio N st r).interpFrac i := by
  have hr1 : ¬ (r < 0.5) := not_lt.mpr hlo
  have hr2 : ¬ (r > 2.0) := by
    have : (2.0 : ℝ) = 2 := by norm_num
    rw [this]
    exact not_lt.mpr hhi
  have hset : setPitchRatio N st r
      = if r ≠ st.pitchRatio then
          updateInterpolationParams N { st with pitchRatio := r }
        else st := by
    simp only [setPitchRatio, if_neg hr1, if_neg hr2]
  refine ⟨?_, ?_, ?_, fun time i => rfl⟩
  · rw [setPitchRatio_ratio, max_eq_left hlo, min_eq_left hhi]
  · intro hne
    rw [hset, if_pos hne]
    refine ⟨rfl, ?_⟩
    intro i hi
    have hi' : i < pvGrainLength N r := hi
    have hX : (updateInterpolationParams N { st with pitchRatio := r }).interpX i
        = (i : ℝ) * N / ((pvGrainLength N r : ℕ) : ℝ) := by
      show (if i < pvGrainLength N r then (i : ℝ) * N / ((pvGrainLength N r : ℕ) : ℝ)
          else st.interpX i) = _
      rw [if_pos hi']
    have hI0 : (updateInterpolationParams N { st with pitchRatio := r }).interpIdx0 i
        = Int.toNat ⌊(i : ℝ) * N / ((pvGrainLength N r : ℕ) : ℝ)⌋ := by
      show (if i < pvGrainLength N r then Int.toNat ⌊(i : ℝ) * N / ((pvGrainLength N r : ℕ) : ℝ)⌋
          else st.interpIdx0 i) = _
      rw [if_pos hi']
    have hI1 : (updateInterpolationParams N { st with pitchRatio := r }).interpIdx1 i
        = (if Int.toNat ⌊(i : ℝ) * N / ((pvGrainLength N r : ℕ) : ℝ)⌋ + 1 ≥ N then N - 1
           else Int.toNat ⌊(i : ℝ) * N / ((pvGrainLength N r : ℕ) : ℝ)⌋ + 1) := by
      show (if i < pvGrainLength N r then
          (if Int.toNat ⌊(i : ℝ) * N / ((pvGrainLength N r : ℕ) : ℝ)⌋ + 1 ≥ N then N - 1
           else Int.toNat ⌊(i : ℝ) * N / ((pvGrainLength N r : ℕ) : ℝ)⌋ + 1)
          else st.interpIdx1 i) = _
      rw [if_pos hi']
    have hF : (updateInterpolationParams N { st with pitchRatio := r }).interpFrac i
        = (i : ℝ) * N / ((pvGrainLength N r : ℕ) : ℝ)
          - ((Int.toNat ⌊(i : ℝ) * N / ((pvGrainLength N r : ℕ) : ℝ)⌋ : ℕ) : ℝ) := by
      show (if i < pvGrainLength N r then (i : ℝ) * N / ((pvGrainLength N r : ℕ) : ℝ)
            - ((Int.toNat ⌊(i : ℝ) * N / ((pvGrainLength N r : ℕ) : ℝ)⌋ : ℕ) : ℝ)
          else st.interpFrac i) = _
      rw [if_pos hi']
    exact ⟨hX, hI0, by rw [hI1, hI0], by rw [hF, hX, hI0]⟩
  · intro heq
    rw [hset, if_neg (by simpa using heq)]

theorem claim_C5_grain_resample_witness :
    ((0.5 : ℝ) ≤ 2 ∧ (2 : ℝ) ≤ 2)
    ∧ getPitchRatio (setPitchRatio 4 (pvInit 4) 2) = 2 :=
  ⟨⟨by norm_num, le_refl 2⟩,
    (claim_C5_grain_resample 4 (pvInit 4) 2 (by norm_num) (by norm_num)).1⟩

/-! ## Whisperization (`whisperization.h`) and Robotization (`robotization.h`)

State and per-sample semantics of `Whisperization<N>` for `N = 2^m`:
`Process` (lines 88-110), `ProcessGrain` (lines 202-240), `RandomPhase`
(lines 192-197), `SetHopSize` (129-133), `SetSeed` (157).  Arrays become
functions `ℕ → ℝ` whose entries beyond their C++ length are never read. -/

/-- Array store `a[i] = v`. -/
def setAt (f : ℕ → ℝ) (i : ℕ) (v : ℝ) : ℕ → ℝ := fun j => if j = i then v else f j

/-- `Windows::Hanning` (windows.h lines 62-67):
`w[i] = 0.5 * (1 - cos(2π/size · i))`. -/
def hanning (size : ℕ) : ℕ → ℝ := fun i =>
  0.5 * (1 - Real.cos (2 * Real.pi / size * i))

/-- One LCG step (whisperization.h line 194):
`seed = seed * 1664525 + 1013904223` in `uint32_t` arithmetic. -/
def lcgNext (s : ℕ) : ℕ := (s * 1664525 + 1013904223) % 2 ^ 32

/-- The phase value returned by `RandomPhase` once the seed has been
advanced: `seed / 2^32 * 2π` (line 196). -/
def lcgPhase (s : ℕ) : ℝ := (s : ℝ) / 2 ^ 32 * (2 * Real.pi)

structure WhisperState (m : ℕ) where
  window : ℕ → ℝ
  inputBuf : ℕ → ℝ
  overlapBuf : ℕ → ℝ
  hop : ℕ
  inputPos : ℕ
  outputPos : ℕ
  mix : ℝ
  seed : ℕ

/-- Constructor plus `Init` (lines 53-79): Hanning window, cleared buffers,
`hop_size_ = N/8`, `mix_ = 1`, `rand_seed_ = 12345`, positions `0`. -/
def whisperInit (m : ℕ) : WhisperState m :=
  { window := hanning (2 ^ m)
    inputBuf := fun _ => 0
    overlapBuf := fun _ => 0
    hop := 2 ^ m / 8
    inputPos := 0
    outputPos := 0
    mix := 1
    seed := 12345 }

/-- `SetHopSize` (lines 129-133): accept only `0 < hop ≤ N`. -/
def whisperSetHopSize (m : ℕ) (st : WhisperState m) (h : ℕ) : WhisperState m :=
  if 0 < h ∧ h ≤ 2 ^ m then { st with hop := h } else st

/-- `SetSeed` (line 157). -/
def whisperSetSeed (m : ℕ) (st : WhisperState m) (s : ℕ) : WhisperState m :=
  { st with seed := s }

/-- `SetMix` (line 145): clamp to `[0, 1]`. -/
def whisperSetMix (m : ℕ) (st : WhisperState m) (x : ℝ) : WhisperState m :=
  { st with mix := max 0 (min 1 x) }

/-- The windowed, FFT-shifted grain built by `ProcessGrain` (lines 204-211):
slot `(i + N/2) % N` holds `input_buffer_[(input_pos_ + i) % N] * window_[i]`;
reading slot `s` inverts the shift with `i = (s + N/2) % N`. -/
def whisperGrainTime (m : ℕ) (st : WhisperState m) : ℕ → ℝ := fun s =>
  st.inputBuf ((st.inputPos + (s + 2 ^ m / 2) % 2 ^ m) % 2 ^ m)
    * st.window ((s + 2 ^ m / 2) % 2 ^ m)

/-- The grain buffer really holds the source's assignment
`grain[(i + N/2) % N] = input_buffer_[(input_pos_ + i) % N] * window_[i]`
for every loop index `i < N` (shifting by `N/2` twice is the identity
mod `N`). -/
theorem whisperGrainTime_spec (m : ℕ) (st : WhisperState m) (i : ℕ) (hi : i < 2 ^ m) :
    whisperGrainTime m st ((i + 2 ^ m / 2) % 2 ^ m)
      = st.inputBuf ((st.inputPos + i) % 2 ^ m) * st.window i := by
  unfold whisperGrainTime
  have key : ((i + 2 ^ m / 2) % 2 ^ m + 2 ^ m / 2) % 2 ^ m = i := by
    cases m with
    | zero =>
      have hi0 : i = 0 := by omega
      simp [hi0]
    | succ m' =>
      have h2 : 2 ^ (m' + 1) = 2 * 2 ^ m' := by rw [pow_succ']
      have hhalf : 2 ^ (m' + 1) / 2 = 2 ^ m' := by
        rw [h2]
        omega
      rw [hhalf, Nat.mod_add_mod,
        show i + 2 ^ m' + 2 ^ m' = i + 2 ^ (m' + 1) from by rw [h2]; ring,
        Nat.add_mod_right]
      exact Nat.mod_eq_of_lt hi
  rw [key]

/-- `GetMagnitude` of the grain spectrum (lines 214-217, fft_handler.h
lines 218-224): `sqrt(re² + im²)` per bin. -/
def whisperMag (m : ℕ) (st : WhisperState m) : ℕ → ℝ := fun k =>
  Real.sqrt ((Forward m (whisperGrainTime m st) k).re ^ 2
    + (Forward m (whisperGrainTime m st) k).im ^ 2)

/-- Spectrum rebuilt with random phase (lines 220-224): bin `i` uses the
`(i+1)`-st LCG state after the grain began. -/
def whisperNewRe (m : ℕ) (st : WhisperState m) : ℕ → ℝ := fun i =>
  whisperMag m st i * Real.cos (lcgPhase (lcgNext^[i + 1] st.seed))

def whisperNewIm (m : ℕ) (st : WhisperState m) : ℕ → ℝ := fun i =>
  whisperMag m st i * Real.sin (lcgPhase (lcgNext^[i + 1] st.seed))

/-- The synthesized grain after the inverse FFT, un-shift and synthesis
window (lines 227-233): `output_buffer_[i] = grain[(i + N/2) % N] * window[i]`. -/
def whisperOutBuf (m : ℕ) (st : WhisperState m) : ℕ → ℝ := fun i =>
  Inverse m (whisperNewRe m st) (whisperNewIm m st) ((i + 2 ^ m / 2) % 2 ^ m)
    * st.window i

/-- The overlap-add loop (lines 236-239): `count` sequential updates
`overlap_buffer_[(output_pos_ + i) % N2] += g[i]`. -/
def olaLoop (N2 pos : ℕ) (g : ℕ → ℝ) : ℕ → (ℕ → ℝ) → (ℕ → ℝ)
  | 0, ov => ov
  | i + 1, ov =>
    let prev := olaLoop N2 pos g i ov
    setAt prev ((pos + i) % N2) (prev ((pos + i) % N2) + g i)

/-- `ProcessGrain` (lines 202-240): FFT, magnitude, random phase, inverse
FFT, windowing, then overlap-add of the `N` output samples into the
`2N`-slot accumulator; the seed has advanced `N` times. -/
def processGrain (m : ℕ) (st : WhisperState m) : WhisperState m :=
  { st with
    overlapBuf := olaLoop (2 ^ m * 2) st.outputPos (whisperOutBuf m st) (2 ^ m) st.overlapBuf
    seed := lcgNext^[2 ^ m] st.seed }

/-- The store/emit/zero/advance part of one `Process` iteration (lines
90-102), before the grain-boundary check. -/
def whisperAdvance (m : ℕ) (st : WhisperState m) (u : ℝ) : WhisperState m :=
  { st with
    inputBuf := setAt st.inputBuf st.inputPos u
    overlapBuf := setAt st.overlapBuf st.outputPos 0
    inputPos := st.inputPos + 1
    outputPos := (st.outputPos + 1) % 2 ^ m }

/-- One iteration of the per-sample loop in `Process` (lines 89-109):
store the input, emit `dry·(1-mix) + wet·mix` with `wet` read from the
accumulator at `output_pos_` (which is then zeroed), advance the positions,
and run `ProcessGrain` (then reset `input_pos_`) once `hop` samples have
accumulated. -/
def whisperStep (m : ℕ) (st : WhisperState m) (u : ℝ) : WhisperState m × ℝ :=
  let out := u * (1 - st.mix) + st.overlapBuf st.outputPos * st.mix
  let st1 := whisperAdvance m st u
  if st1.inputPos ≥ st.hop then ({ processGrain m st1 with inputPos := 0 }, out)
  else (st1, out)

/-- The state after feeding the first `n` samples of the stream `u`. -/
def whisperRun (m : ℕ) (st0 : WhisperState m) (u : ℕ → ℝ) : ℕ → WhisperState m
  | 0 => st0
  | n + 1 => (whisperStep m (whisperRun m st0 u n) (u n)).1

/-- The output produced for sample `n` of the stream `u`. -/
def whisperOut (m : ℕ) (st0 : WhisperState m) (u : ℕ → ℝ) (n : ℕ) : ℝ :=
  (whisperStep m (whisperRun m st0 u n) (u n)).2

/-- Robotization state (robotization.h lines 155-170) — same structure as
whisperization without the LCG seed. -/
structure RobotState (m : ℕ) where
  window : ℕ → ℝ
  inputBuf : ℕ → ℝ
  overlapBuf : ℕ → ℝ
  hop : ℕ
  inputPos : ℕ
  outputPos : ℕ
  mix : ℝ

/-- `Robotization::SetHopSize` (lines 122-126): accept only `0 < hop ≤ N`. -/
def robotSetHopSize (m : ℕ) (st : RobotState m) (h : ℕ) : RobotState m :=
  if 0 < h ∧ h ≤ 2 ^ m then { st with hop := h } else st

/-! ### Per-sample trace facts for whisperization -/

theorem whisperStep_fields (m : ℕ) (st : WhisperState m) (u : ℝ) :
    (whisperStep m st u).1.hop = st.hop
    ∧ (whisperStep m st u).1.outputPos = (st.outputPos + 1) % 2 ^ m
    ∧ (whisperStep m st u).1.mix = st.mix
    ∧ (whisperStep m st u).1.window = st.window
    ∧ (whisperStep m st u).1.inputPos
        = (if st.inputPos + 1 ≥ st.hop then 0 else st.inputPos + 1)
    ∧ (whisperStep m st u).2 = u * (1 - st.mix) + st.overlapBuf st.outputPos * st.mix := by
  by_cases hb : st.inputPos + 1 ≥ st.hop <;>
    simp [whisperStep, whisperAdvance, processGrain, hb]

theorem whisperRun_hop (m : ℕ) (st0 : WhisperState m) (u : ℕ → ℝ) :
    ∀ n, (whisperRun m st0 u n).hop = st0.hop := by
  intro n
  induction n with
  | zero => rfl
  | succ n ih =>
    rw [whisperRun, (whisperStep_fields m _ (u n)).1, ih]

theorem whisperRun_mix (m : ℕ) (st0 : WhisperState m) (u : ℕ → ℝ) :
    ∀ n, (whisperRun m st0 u n).mix = st0.mix := by
  intro n
  induction n with
  | zero => rfl
  | succ n ih =>
    rw [whisperRun, (whisperStep_fields m _ (u n)).2.2.1, ih]

theorem whisperRun_outputPos (m : ℕ) (st0 : WhisperState m) (u : ℕ → ℝ)
    (h0 : st0.outputPos = 0) : ∀ n, (whisperRun m st0 u n).outputPos = n % 2 ^ m := by
  intro n
  induction n with
  | zero => simpa using h0
  | succ n ih =>
    rw [whisperRun, (whisperStep_fields m _ (u n)).2.1, ih, Nat.mod_add_mod]

theorem whisperRun_inputPos (m : ℕ) (st0 : WhisperState m) (u : ℕ → ℝ)
    (h0 : st0.inputPos = 0) (hhop : 0 < st0.hop) :
    ∀ n, (whisperRun m st0 u n).inputPos = n % st0.hop := by
  intro n
  induction n with
  | zero => simpa using h0
  | succ n ih =>
    rw [whisperRun, (whisperStep_fields m _ (u n)).2.2.2.2.1, ih,
      whisperRun_hop m st0 u n]
    have hlt : n % st0.hop < st0.hop := Nat.mod_lt n hhop
    have key : (n % st0.hop + 1) % st0.hop = (n + 1) % st0.hop :=
      Nat.mod_add_mod n st0.hop 1
    by_cases hc : n % st0.hop + 1 ≥ st0.hop
    · rw [if_pos hc]
      have heq : n % st0.hop + 1 = st0.hop := by omega
      rw [← key, heq, Nat.mod_self]
    · rw [if_neg hc, ← key]
      exact (Nat.mod_eq_of_lt (by omega)).symm

/-! ### The overlap-add loop writes, and only writes, its `N` target slots -/

theorem add_mod_inj (N2 pos i j : ℕ) (hi : i < N2) (hj : j < N2)
    (h : (pos + i) % N2 = (pos + j) % N2) : i = j := by
  have h2 := Nat.ModEq.add_left_cancel' (c := pos) (h : Nat.ModEq N2 (pos + i) (pos + j))
  rwa [Nat.ModEq, Nat.mod_eq_of_lt hi, Nat.mod_eq_of_lt hj] at h2

theorem olaLoop_ne (N2 pos : ℕ) (g : ℕ → ℝ) (count : ℕ) (ov : ℕ → ℝ) (idx : ℕ)
    (h : ∀ i, i < count → (pos + i) % N2 ≠ idx) :
    olaLoop N2 pos g count ov idx = ov idx := by
  induction count with
  | zero => rfl
  | succ c ih =>
    show setAt (olaLoop N2 pos g c ov) ((pos + c) % N2) _ idx = ov idx
    rw [setAt, if_neg]
    · exact ih fun i hi => h i (by omega)
    · intro habs
      exact h c (by omega) (habs ▸ rfl)

theorem olaLoop_eq (N2 pos : ℕ) (g : ℕ → ℝ) (count : ℕ) (ov : ℕ → ℝ) (i0 : ℕ)
    (hi0 : i0 < count) (hcnt : count ≤ N2) :
    olaLoop N2 pos g count ov ((pos + i0) % N2)
      = ov ((pos + i0) % N2) + g i0 := by
  induction count with
  | zero => omega
  | succ c ih =>
    by_cases hc : i0 = c
    · subst hc
      show setAt (olaLoop N2 pos g i0 ov) ((pos + i0) % N2) _ ((pos + i0) % N2) = _
      rw [setAt, if_pos rfl, olaLoop_ne]
      intro i hi habs
      exact absurd (add_mod_inj N2 pos i i0 (by omega) (by omega) habs) (by omega)
    · have hi0c : i0 < c := by omega
      show setAt (olaLoop N2 pos g c ov) ((pos + c) % N2) _ ((pos + i0) % N2) = _
      rw [setAt, if_neg, ih hi0c (by omega)]
      intro habs
      exact hc (add_mod_inj N2 pos i0 c (by omega) (by omega) habs)

/-- Every iteration `i < N` of the grain's overlap-add loop adds
`output_buffer_[i]` into accumulator slot `(output_pos_ + i) % 2N`. -/
theorem processGrain_adds (m : ℕ) (st : WhisperState m) (i : ℕ) (hi : i < 2 ^ m) :
    (processGrain m st).overlapBuf ((st.outputPos + i) % (2 ^ m * 2))
      = st.overlapBuf ((st.outputPos + i) % (2 ^ m * 2)) + whisperOutBuf m st i := by
  unfold processGrain
  exact olaLoop_eq _ _ _ _ _ i hi (Nat.le_mul_of_pos_right _ (by norm_num))

/-! ## Claim C2 -/

/-- The test configuration `Whisperization<4>` with `SetHopSize(2)`. -/
def whisperC2St : WhisperState 2 := whisperSetHopSize 2 (whisperInit 2) 2

/-- C2 fails on the code: in `Whisperization<4>` with hop 2, for any input
stream, (1) the per-sample drain position `output_pos_` only ever visits
slots `0..N-1 = 0..3`, so accumulator slots `N..2N-1` are never drained
(read or zeroed); (2) a grain fires while processing samples 1 and 5
(0-based), each with overlap-add write base `(output_pos_+1) % 4 = 2`, and
loop iteration `i = 2` of each writes slot `(2 + 2) % 8 = 4 ≥ N`; (3) every
such loop iteration really adds `output_buffer_[i]` into that slot.  Hence
slot 4 is written by the first grain and rewritten by the third with no
drain in between — the drain reads `output_pos_ % N` while the overlap-add
writes `(output_pos_ + i) % 2N`.  (The claim's per-sample output formula
`dry·(1-mix) + wet·mix`, with `wet` read from the accumulator at the read
position, does hold — final conjunct.) -/
theorem claim_C2_overlap_drain (u : ℕ → ℝ) :
    (∀ n, (whisperRun 2 whisperC2St u n).outputPos < 4)
    ∧ (whisperRun 2 whisperC2St u 1).inputPos + 1 ≥ (whisperRun 2 whisperC2St u 1).hop
    ∧ (whisperRun 2 whisperC2St u 5).inputPos + 1 ≥ (whisperRun 2 whisperC2St u 5).hop
    ∧ ((whisperRun 2 whisperC2St u 1).outputPos + 1 + 2) % 8 = 4
    ∧ ((whisperRun 2 whisperC2St u 5).outputPos + 1 + 2) % 8 = 4
    ∧ (∀ st : WhisperState 2, ∀ i, i < 4 →
        (processGrain 2 st).overlapBuf ((st.outputPos + i) % 8)
          = st.overlapBuf ((st.outputPos + i) % 8) + whisperOutBuf 2 st i)
    ∧ ∀ (st : WhisperState 2) (w : ℝ),
        (whisperStep 2 st w).2
          = w * (1 - st.mix) + st.overlapBuf st.outputPos * st.mix := by
  have hhop : whisperC2St.hop = 2 := rfl
  have hin : whisperC2St.inputPos = 0 := rfl
  have hout : whisperC2St.outputPos = 0 := rfl
  have hoplt : (0 : ℕ) < whisperC2St.hop := by rw [hhop]; norm_num
  have hip := whisperRun_inputPos 2 whisperC2St u hin hoplt
  have hop := whisperRun_outputPos 2 whisperC2St u hout
  have hh := whisperRun_hop 2 whisperC2St u
  refine ⟨?_, ?_, ?_, ?_, ?_, ?_, ?_⟩
  · intro n
    rw [hop n]
    exact Nat.mod_lt n (by norm_num)
  · rw [hip 1, hh 1, hhop]
  · rw [hip 5, hh 5, hhop]
  · rw [hop 1]
    norm_num
  · rw [hop 5]
    norm_num
  · intro st i hi
    exact processGrain_adds 2 st i hi
  · intro st w
    exact (whisperStep_fields 2 st w).2.2.2.2.2

theorem claim_C2_overlap_drain_witness :
    (2 < 4)
    ∧ (processGrain 2 (whisperInit 2)).overlapBuf (((whisperInit 2).outputPos + 2) % 8)
        = (whisperInit 2).overlapBuf (((whisperInit 2).outputPos + 2) % 8)
          + whisperOutBuf 2 (whisperInit 2) 2 :=
  ⟨by norm_num,
    (claim_C2_overlap_drain (fun _ => 0)).2.2.2.2.2.1 (whisperInit 2) 2 (by norm_num)⟩

/-! ## Claim C10 -/

/-- C10: for both whisperization and robotization, `SetHopSize(h)` sets the
hop size to `h` exactly when `0 < h ≤ N`, and for every other argument the
hop size and all other state fields are completely unchanged. -/
theorem claim_C10_sethopsize (m : ℕ) (wst : WhisperState m) (rst : RobotState m) (h : ℕ) :
    ((whisperSetHopSize m wst h).hop = (if 0 < h ∧ h ≤ 2 ^ m then h else wst.hop)
      ∧ (whisperSetHopSize m wst h).window = wst.window
      ∧ (whisperSetHopSize m wst h).inputBuf = wst.inputBuf
      ∧ (whisperSetHopSize m wst h).overlapBuf = wst.overlapBuf
      ∧ (whisperSetHopSize m wst h).inputPos = wst.inputPos
      ∧ (whisperSetHopSize m wst h).outputPos = wst.outputPos
      ∧ (whisperSetHopSize m wst h).mix = wst.mix
      ∧ (whisperSetHopSize m wst h).seed = wst.seed)
    ∧ ((robotSetHopSize m rst h).hop = (if 0 < h ∧ h ≤ 2 ^ m then h else rst.hop)
      ∧ (robotSetHopSize m rst h).window = rst.window
      ∧ (robotSetHopSize m rst h).inputBuf = rst.inputBuf
      ∧ (robotSetHopSize m rst h).overlapBuf = rst.overlapBuf
      ∧ (robotSetHopSize m rst h).inputPos = rst.inputPos
      ∧ (robotSetHopSize m rst h).outputPos = rst.outputPos
      ∧ (robotSetHopSize m rst h).mix = rst.mix) := by
  unfold whisperSetHopSize robotSetHopSize
  by_cases hc : 0 < h ∧ h ≤ 2 ^ m <;> simp [hc]

/-! ## Claim C3: whisperization and the seed -/

/-- Both working buffers all-zero. -/
def ZeroBufs {m : ℕ} (st : WhisperState m) : Prop :=
  (∀ i, st.inputBuf i = 0) ∧ (∀ i, st.overlapBuf i = 0)

theorem olaLoop_zero_g (N2 pos : ℕ) (g : ℕ → ℝ) (count : ℕ) (ov : ℕ → ℝ)
    (hg : ∀ i, g i = 0) : olaLoop N2 pos g count ov = ov := by
  induction count with
  | zero => rfl
  | succ c ih =>
    show setAt (olaLoop N2 pos g c ov) ((pos + c) % N2) _ = ov
    rw [ih, hg, add_zero]
    funext j
    rw [setAt]
    by_cases hj : j = (pos + c) % N2
    · rw [if_pos hj, hj]
    · rw [if_neg hj]

theorem whisperOutBuf_zero (m : ℕ) (st : WhisperState m) (hz : ∀ i, st.inputBuf i = 0) :
    ∀ i, whisperOutBuf m st i = 0 := by
  intro i
  have hgrain : ∀ s, whisperGrainTime m st s = 0 := by
    intro s
    rw [whisperGrainTime, hz, zero_mul]
  have hmag : ∀ k, whisperMag m st k = 0 := by
    intro k
    rw [whisperMag, Forward_zero m _ hgrain]
    norm_num
  have hre : ∀ k, whisperNewRe m st k = 0 := by
    intro k
    rw [whisperNewRe, hmag, zero_mul]
  have him : ∀ k, whisperNewIm m st k = 0 := by
    intro k
    rw [whisperNewIm, hmag, zero_mul]
  rw [whisperOutBuf, Inverse_zero m _ _ (fun k => ⟨hre k, him k⟩), zero_mul]

theorem processGrain_zero (m : ℕ) (st : WhisperState m)
    (hz : ∀ i, st.inputBuf i = 0) (hzo : ∀ i, st.overlapBuf i = 0) :
    (∀ i, (processGrain m st).inputBuf i = 0)
    ∧ ∀ i, (processGrain m st).overlapBuf i = 0 := by
  constructor
  · exact hz
  · intro i
    show olaLoop (2 ^ m * 2) st.outputPos (whisperOutBuf m st) (2 ^ m) st.overlapBuf i = 0
    rw [olaLoop_zero_g _ _ _ _ _ (whisperOutBuf_zero m st hz)]
    exact hzo i

theorem whisperStep_zero (m : ℕ) (st : WhisperState m) (hz : ZeroBufs st) :
    ZeroBufs (whisperStep m st 0).1 ∧ (whisperStep m st 0).2 = 0 := by
  obtain ⟨hzi, hzo⟩ := hz
  have hz1i : ∀ i, setAt st.inputBuf st.inputPos 0 i = 0 := by
    intro i
    rw [setAt]
    by_cases hi : i = st.inputPos
    · rw [if_pos hi]
    · rw [if_neg hi]; exact hzi i
  have hz1o : ∀ i, setAt st.overlapBuf st.outputPos 0 i = 0 := by
    intro i
    rw [setAt]
    by_cases hi : i = st.outputPos
    · rw [if_pos hi]
    · rw [if_neg hi]; exact hzo i
  have hout : (whisperStep m st 0).2 = 0 := by
    rw [(whisperStep_fields m st 0).2.2.2.2.2, hzo]
    ring
  refine ⟨?_, hout⟩
  have hadv_i : ∀ i, (whisperAdvance m st 0).inputBuf i = 0 := fun i => hz1i i
  have hadv_o : ∀ i, (whisperAdvance m st 0).overlapBuf i = 0 := fun i => hz1o i
  have hpg := processGrain_zero m (whisperAdvance m st 0) hadv_i hadv_o
  unfold whisperStep
  by_cases hb : (whisperAdvance m st 0).inputPos ≥ st.hop
  · rw [if_pos hb]
    exact ⟨fun i => hpg.1 i, fun i => hpg.2 i⟩
  · rw [if_neg hb]
    exact ⟨fun i => hadv_i i, fun i => hadv_o i⟩

theorem whisperRun_zero (m : ℕ) (st0 : WhisperState m) (hz : ZeroBufs st0) :
    ∀ n, ZeroBufs (whisperRun m st0 (fun _ => 0) n)
      ∧ whisperOut m st0 (fun _ => 0) n = 0 := by
  have hrun : ∀ n, ZeroBufs (whisperRun m st0 (fun _ => 0) n) := by
    intro n
    induction n with
    | zero => exact hz
    | succ n ih => exact (whisperStep_zero m _ ih).1
  intro n
  exact ⟨hrun n, (whisperStep_zero m _ (hrun n)).2⟩

/-- First `n` output samples of a zero-input run seeded with `seed`. -/
def whisperOutsZero (seed n : ℕ) : List ℝ :=
  (List.range n).map (whisperOut 2 (whisperSetSeed 2 whisperC2St seed) (fun _ => 0))

/-- C3 counterexample: two `Whisperization<4>` instances initialized
identically, seeded `12345` and `54321` (the seeds of the repository's
`RandomPhaseVariation` test), fed the identical all-zero input stream,
produce bit-identical (all-zero) output sequences — refuting "two instances
with different seeds and identical input produce differing output
sequences". -/
theorem claim_C3_counterexample :
    (12345 : ℕ) ≠ 54321
    ∧ whisperOutsZero 12345 8 = whisperOutsZero 54321 8 := by
  have hz : ∀ seed : ℕ, ZeroBufs (whisperSetSeed 2 whisperC2St seed) :=
    fun seed => ⟨fun i => rfl, fun i => rfl⟩
  have hout : ∀ seed k : ℕ,
      whisperOut 2 (whisperSetSeed 2 whisperC2St seed) (fun _ => 0) k = 0 :=
    fun seed k => (whisperRun_zero 2 _ (hz seed) k).2
  constructor
  · norm_num
  · unfold whisperOutsZero
    rw [List.map_eq_map_iff]
    intro k _
    rw [hout 12345 k, hout 54321 k]

/-- C3 (amended): (1) determinism holds — the whisperization state and the
emitted samples are a function of the initial state (hence of the seed set
by `SetSeed`) and of the input samples consumed so far, so two instances
initialized identically with the same seed and fed identical inputs produce
bit-identical outputs; (2) two different seeds (as 32-bit values) give the
LCG different states, hence different first random-phase values — but the
outputs need not differ (e.g. they coincide on silent input, where every
magnitude is zero). -/
theorem claim_C3_determinism :
    (∀ (m : ℕ) (st0 : WhisperState m) (u v : ℕ → ℝ) (n : ℕ),
       (∀ k, k < n → u k = v k) →
         whisperRun m st0 u n = whisperRun m st0 v n
         ∧ ∀ k, k < n → whisperOut m st0 u k = whisperOut m st0 v k)
    ∧ (∀ s t : ℕ, s < 2 ^ 32 → t < 2 ^ 32 → s ≠ t →
         lcgNext s ≠ lcgNext t ∧ lcgPhase (lcgNext s) ≠ lcgPhase (lcgNext t)) := by
  constructor
  · have hrun : ∀ (m : ℕ) (st0 : WhisperState m) (u v : ℕ → ℝ) (n : ℕ),
        (∀ k, k < n → u k = v k) → whisperRun m st0 u n = whisperRun m st0 v n := by
      intro m st0 u v n
      induction n with
      | zero => intro _; rfl
      | succ n ih =>
        intro h
        rw [whisperRun, whisperRun, ih (fun k hk => h k (by omega)), h n (by omega)]
    intro m st0 u v n h
    refine ⟨hrun m st0 u v n h, ?_⟩
    intro k hk
    rw [whisperOut, whisperOut, hrun m st0 u v k (fun j hj => h j (by omega)), h k hk]
  · intro s t hs ht hne
    have hcop : Nat.gcd (2 ^ 32) 1664525 = 1 := by norm_num
    have hinj : lcgNext s ≠ lcgNext t := by
      intro habs
      unfold lcgNext at habs
      have hmod : Nat.ModEq (2 ^ 32) (s * 1664525 + 1013904223)
          (t * 1664525 + 1013904223) := habs
      have hmul : Nat.ModEq (2 ^ 32) (s * 1664525) (t * 1664525) :=
        Nat.ModEq.add_right_cancel' 1013904223 hmod
      have hst : Nat.ModEq (2 ^ 32) s t :=
        Nat.ModEq.cancel_right_of_coprime hcop hmul
      rw [Nat.ModEq, Nat.mod_eq_of_lt hs, Nat.mod_eq_of_lt ht] at hst
      exact hne hst
    refine ⟨hinj, ?_⟩
    intro habs
    apply hinj
    unfold lcgPhase at habs
    have hne2 : (2 * Real.pi) ≠ 0 := by positivity
    have hp2 : ((2 : ℝ) ^ 32) ≠ 0 := by positivity
    have h3 : ((lcgNext s : ℕ) : ℝ) / 2 ^ 32 = ((lcgNext t : ℕ) : ℝ) / 2 ^ 32 :=
      mul_right_cancel₀ hne2 habs
    have h4 : ((lcgNext s : ℕ) : ℝ) = ((lcgNext t : ℕ) : ℝ) := by
      have h5 := congrArg (fun w : ℝ => w * 2 ^ 32) h3
      simp only at h5
      rwa [div_mul_cancel₀ _ hp2, div_mul_cancel₀ _ hp2] at h5
    exact_mod_cast h4

theorem claim_C3_determinism_witness :
    whisperRun 2 whisperC2St (fun _ => 0) 1
        = whisperRun 2 whisperC2St (fun k => if k < 1 then 0 else 1) 1
    ∧ lcgNext 12345 ≠ lcgNext 54321
    ∧ lcgPhase (lcgNext 12345) ≠ lcgPhase (lcgNext 54321) := by
  refine ⟨(claim_C3_determinism.1 2 whisperC2St _ _ 1 ?_).1, ?_, ?_⟩
  · intro k hk
    simp [hk]
  · exact (claim_C3_determinism.2 12345 54321 (by norm_num) (by norm_num) (by norm_num)).1
  · exact (claim_C3_determinism.2 12345 54321 (by norm_num) (by norm_num) (by norm_num)).2

/-! ## Spectral FIR filter (`spectral_filter.h`)

`SpectralFilter<FIR_LENGTH>` with `FIR_LENGTH = L = 2^m` and
`FFT_SIZE = 2L = 2^(m+1)` (the `FFTHandler<FFT_SIZE>` member statically
requires a power of two).  `Process` is lines 171-191, `ProcessBlock`
lines 257-284, `UpdateFIRSpectrum` lines 228-236, `Init` lines 57-75. -/

structure SFState (m : ℕ) where
  inputBuf : ℕ → ℝ
  outputBuf : ℕ → ℝ
  overlapBuf : ℕ → ℝ
  fir : ℕ → ℝ
  firSpecRe : ℕ → ℝ
  firSpecIm : ℕ → ℝ
  pos : ℕ

/-- `UpdateFIRSpectrum`: zero-pad the `L`-tap FIR to `2L` and cache its
forward transform. -/
def sfUpdateFIRSpectrum (m : ℕ) (st : SFState m) : SFState m :=
  { st with
    firSpecRe := fun k =>
      (Forward (m + 1) (fun i => if i < 2 ^ m then st.fir i else 0) k).re
    firSpecIm := fun k =>
      (Forward (m + 1) (fun i => if i < 2 ^ m then st.fir i else 0) k).im }

/-- `Init`: clear all buffers, set the default unity-at-tap-0 kernel
(`fir_[0] = 1.0f`), and cache its spectrum. -/
def sfInit (m : ℕ) : SFState m :=
  sfUpdateFIRSpectrum m
    { inputBuf := fun _ => 0
      outputBuf := fun _ => 0
      overlapBuf := fun _ => 0
      fir := fun i => if i = 0 then 1 else 0
      firSpecRe := fun _ => 0
      firSpecIm := fun _ => 0
      pos := 0 }

/-- The zero-padded input block of `ProcessBlock` (lines 259-261). -/
def sfPadded (m : ℕ) (st : SFState m) : ℕ → ℝ := fun i =>
  if i < 2 ^ m then st.inputBuf i else 0

/-- The frequency-domain product with the cached kernel spectrum
(lines 267-274): complex multiplication, split into re/im parts. -/
def sfWorkRe (m : ℕ) (st : SFState m) : ℕ → ℝ := fun k =>
  (Forward (m + 1) (sfPadded m st) k).re * st.firSpecRe k
    - (Forward (m + 1) (sfPadded m st) k).im * st.firSpecIm k

def sfWorkIm (m : ℕ) (st : SFState m) : ℕ → ℝ := fun k =>
  (Forward (m + 1) (sfPadded m st) k).re * st.firSpecIm k
    + (Forward (m + 1) (sfPadded m st) k).im * st.firSpecRe k

/-- The inverse-transformed convolution block (line 277). -/
def sfTime (m : ℕ) (st : SFState m) : ℕ → ℝ :=
  Inverse (m + 1) (sfWorkRe m st) (sfWorkIm m st)

/-- `ProcessBlock`: zero-pad the buffered block, transform, multiply
pointwise by the cached kernel spectrum (complex product, lines 267-274),
inverse-transform, and split: the first `L` samples (plus carried overlap)
become the output block, the second `L` samples become the new overlap. -/
def sfProcessBlock (m : ℕ) (st : SFState m) : SFState m :=
  { st with
    outputBuf := fun i => sfTime m st i + st.overlapBuf i
    overlapBuf := fun i => sfTime m st (i + 2 ^ m) }

/-- One `Process` call (lines 171-191): buffer the input, emit
`output_buffer_[pos]`, carry `overlap_buffer_[pos]` into the output buffer
and zero it, advance, and run `ProcessBlock` when `L` samples are ready. -/
def sfStep (m : ℕ) (st : SFState m) (u : ℝ) : SFState m × ℝ :=
  let out := st.outputBuf st.pos
  let st1 : SFState m :=
    { st with
      inputBuf := setAt st.inputBuf st.pos u
      outputBuf := setAt st.outputBuf st.pos (st.overlapBuf st.pos)
      overlapBuf := setAt st.overlapBuf st.pos 0
      pos := st.pos + 1 }
  if st1.pos ≥ 2 ^ m then (sfProcessBlock m { st1 with pos := 0 }, out)
  else (st1, out)

def sfSteps (m : ℕ) (st : SFState m) (v : ℕ → ℝ) : ℕ → SFState m
  | 0 => st
  | j + 1 => (sfStep m (sfSteps m st v j) (v j)).1

def sfRun (m : ℕ) (st0 : SFState m) (u : ℕ → ℝ) : ℕ → SFState m
  | 0 => st0
  | n + 1 => (sfStep m (sfRun m st0 u n) (u n)).1

def sfOut (m : ℕ) (st0 : SFState m) (u : ℕ → ℝ) (n : ℕ) : ℝ :=
  (sfStep m (sfRun m st0 u n) (u n)).2

theorem sfRun_shift (m : ℕ) (st0 : SFState m) (u : ℕ → ℝ) (a : ℕ) :
    ∀ j, sfRun m st0 u (a + j) = sfSteps m (sfRun m st0 u a) (fun i => u (a + i)) j := by
  intro j
  induction j with
  | zero => rfl
  | succ j ih =>
    show sfRun m st0 u (a + j + 1) = _
    rw [sfRun, ih]
    rfl

theorem sfStep_out (m : ℕ) (st : SFState m) (u : ℝ) :
    (sfStep m st u).2 = st.outputBuf st.pos := by
  unfold sfStep
  by_cases hb : st.pos + 1 ≥ 2 ^ m <;> simp [hb]

theorem sfStep_spec_fields (m : ℕ) (st : SFState m) (u : ℝ) :
    (sfStep m st u).1.fir = st.fir
    ∧ (sfStep m st u).1.firSpecRe = st.firSpecRe
    ∧ (sfStep m st u).1.firSpecIm = st.firSpecIm := by
  unfold sfStep
  by_cases hb : st.pos + 1 ≥ 2 ^ m <;> simp [hb, sfProcessBlock]

/-- With the identity kernel spectrum, a processed block reproduces the
buffered input exactly and leaves no overlap tail. -/
theorem sfProcessBlock_identity (m : ℕ) (st : SFState m)
    (hre : ∀ k, k < 2 ^ (m + 1) → st.firSpecRe k = 1)
    (him : ∀ k, k < 2 ^ (m + 1) → st.firSpecIm k = 0) :
    (∀ i, i < 2 ^ m → (sfProcessBlock m st).outputBuf i = st.inputBuf i + st.overlapBuf i)
    ∧ (∀ i, i < 2 ^ m → (sfProcessBlock m st).overlapBuf i = 0)
    ∧ (sfProcessBlock m st).pos = st.pos
    ∧ (sfProcessBlock m st).inputBuf = st.inputBuf
    ∧ (sfProcessBlock m st).fir = st.fir
    ∧ (sfProcessBlock m st).firSpecRe = st.firSpecRe
    ∧ (sfProcessBlock m st).firSpecIm = st.firSpecIm := by
  have hcongr : sfTime m st
      = Inverse (m + 1)
        (fun k => (Forward (m + 1) (sfPadded m st) k).re)
        (fun k => (Forward (m + 1) (sfPadded m st) k).im) := by
    unfold sfTime
    apply Inverse_congr
    intro k hk
    unfold sfWorkRe sfWorkIm
    rw [hre k hk, him k hk]
    constructor <;> ring
  have htime : ∀ i, i < 2 ^ (m + 1) → sfTime m st i = sfPadded m st i := by
    intro i hi
    rw [hcongr]
    exact Inverse_Forward (m + 1) (sfPadded m st) i hi
  have hlt : ∀ i : ℕ, i < 2 ^ m → i < 2 ^ (m + 1) := by
    intro i hi
    have : (2 : ℕ) ^ m < 2 ^ (m + 1) := by
      rw [pow_succ]
      omega
    omega
  refine ⟨?_, ?_, rfl, rfl, rfl, rfl, rfl⟩
  · intro i hi
    show sfTime m st i + st.overlapBuf i = _
    rw [htime i (hlt i hi), sfPadded, if_pos hi]
  · intro i hi
    show sfTime m st (i + 2 ^ m) = 0
    have h1 : i + 2 ^ m < 2 ^ (m + 1) := by
      rw [pow_succ]
      omega
    rw [htime _ h1, sfPadded, if_neg (by omega)]

/-- Mid-cycle facts: starting from a block-start state (`pos = 0`, clean
overlap), after `j < L` samples the first `j` output slots have been
emitted and refilled with the (zero) carried overlap, the inputs are
buffered, and the overlap stays clean. -/
theorem sfMid (m : ℕ) (st : SFState m) (v : ℕ → ℝ)
    (hpos : st.pos = 0) (hov : ∀ i, i < 2 ^ m → st.overlapBuf i = 0) :
    ∀ j, j < 2 ^ m →
      (sfSteps m st v j).pos = j
      ∧ (∀ i, i < 2 ^ m → (sfSteps m st v j).overlapBuf i = 0)
      ∧ (∀ i, i < 2 ^ m →
          (sfSteps m st v j).outputBuf i = if i < j then 0 else st.outputBuf i)
      ∧ (∀ i, i < 2 ^ m →
          (sfSteps m st v j).inputBuf i = if i < j then v i else st.inputBuf i)
      ∧ (sfSteps m st v j).firSpecRe = st.firSpecRe
      ∧ (sfSteps m st v j).firSpecIm = st.firSpecIm := by
  intro j
  induction j with
  | zero =>
    intro _
    refine ⟨hpos, hov, ?_, ?_, rfl, rfl⟩
    · intro i _
      rw [if_neg (by omega)]
      rfl
    · intro i _
      rw [if_neg (by omega)]
      rfl
  | succ j ih =>
    intro hj
    obtain ⟨hp, ho, hout, hin, hsre, hsim⟩ := ih (by omega)
    have hnoblock : ¬ ((sfSteps m st v j).pos + 1 ≥ 2 ^ m) := by
      rw [hp]
      omega
    have hstep : sfSteps m st v (j + 1)
        = { sfSteps m st v j with
            inputBuf := setAt (sfSteps m st v j).inputBuf (sfSteps m st v j).pos (v j)
            outputBuf := setAt (sfSteps m st v j).outputBuf (sfSteps m st v j).pos
              ((sfSteps m st v j).overlapBuf (sfSteps m st v j).pos)
            overlapBuf := setAt (sfSteps m st v j).overlapBuf (sfSteps m st v j).pos 0
            pos := (sfSteps m st v j).pos + 1 } := by
      show (sfStep m (sfSteps m st v j) (v j)).1 = _
      unfold sfStep
      rw [if_neg hnoblock]
    rw [hstep]
    refine ⟨by rw [hp], ?_, ?_, ?_, hsre, hsim⟩
    · intro i hi
      show setAt _ _ _ i = 0
      rw [setAt]
      by_cases hij : i = (sfSteps m st v j).pos
      · rw [if_pos hij]
      · rw [if_neg hij]
        exact ho i hi
    · intro i hi
      show setAt _ _ _ i = _
      rw [setAt, hp]
      by_cases hij : i = j
      · rw [if_pos hij, ho j (by omega), if_pos (by omega)]
      · rw [if_neg hij, hout i hi]
        by_cases hlt : i < j
        · rw [if_pos hlt, if_pos (by omega)]
        · rw [if_neg hlt, if_neg (by omega)]
    · intro i hi
      show setAt _ _ _ i = _
      rw [setAt, hp]
      by_cases hij : i = j
      · rw [if_pos hij, hij, if_pos (by omega)]
      · rw [if_neg hij, hin i hi]
        by_cases hlt : i < j
        · rw [if_pos hlt, if_pos (by omega)]
        · rw [if_neg hlt, if_neg (by omega)]

/-- End of a cycle: consuming the `L`-th sample triggers `ProcessBlock`;
with the identity kernel the new output block is exactly the buffered
input block and the overlap stays clean. -/
theorem sfCycleEnd (m : ℕ) (st : SFState m) (v : ℕ → ℝ)
    (hpos : st.pos = 0) (hov : ∀ i, i < 2 ^ m → st.overlapBuf i = 0)
    (hre : ∀ k, k < 2 ^ (m + 1) → st.firSpecRe k = 1)
    (him : ∀ k, k < 2 ^ (m + 1) → st.firSpecIm k = 0) :
    (sfSteps m st v (2 ^ m)).pos = 0
    ∧ (∀ i, i < 2 ^ m → (sfSteps m st v (2 ^ m)).outputBuf i = v i)
    ∧ (∀ i, i < 2 ^ m → (sfSteps m st v (2 ^ m)).overlapBuf i = 0)
    ∧ (sfSteps m st v (2 ^ m)).firSpecRe = st.firSpecRe
    ∧ (sfSteps m st v (2 ^ m)).firSpecIm = st.firSpecIm := by
  have hLpos : 0 < 2 ^ m := by positivity
  obtain ⟨j, hj⟩ : ∃ j, 2 ^ m = j + 1 := ⟨2 ^ m - 1, by omega⟩
  obtain ⟨hp, ho, hout, hin, hsre, hsim⟩ := sfMid m st v hpos hov j (by omega)
  have hblock : ((sfSteps m st v j).pos + 1 ≥ 2 ^ m) := by
    rw [hp]
    omega
  set sj := sfSteps m st v j with hsj
  set st1 : SFState m :=
    { sj with
      inputBuf := setAt sj.inputBuf sj.pos (v j)
      outputBuf := setAt sj.outputBuf sj.pos (sj.overlapBuf sj.pos)
      overlapBuf := setAt sj.overlapBuf sj.pos 0
      pos := 0 } with hst1
  have hstep : sfSteps m st v (2 ^ m) = sfProcessBlock m st1 := by
    rw [hj]
    show (sfStep m sj (v j)).1 = _
    unfold sfStep
    rw [if_pos hblock]
  have hin1 : ∀ i, i < 2 ^ m → st1.inputBuf i = v i := by
    intro i hi
    show setAt sj.inputBuf sj.pos (v j) i = v i
    rw [setAt, hp]
    by_cases hij : i = j
    · rw [if_pos hij, hij]
    · rw [if_neg hij, hin i hi, if_pos (by omega)]
  have hov1 : ∀ i, i < 2 ^ m → st1.overlapBuf i = 0 := by
    intro i hi
    show setAt sj.overlapBuf sj.pos 0 i = 0
    rw [setAt]
    by_cases hij : i = sj.pos
    · rw [if_pos hij]
    · rw [if_neg hij]
      exact ho i hi
  have hre1 : ∀ k, k < 2 ^ (m + 1) → st1.firSpecRe k = 1 := by
    intro k hk
    show sj.firSpecRe k = 1
    rw [hsre]
    exact hre k hk
  have him1 : ∀ k, k < 2 ^ (m + 1) → st1.firSpecIm k = 0 := by
    intro k hk
    show sj.firSpecIm k = 0
    rw [hsim]
    exact him k hk
  obtain ⟨hbo, hbov, hbpos, _, _, hbre, hbim⟩ := sfProcessBlock_identity m st1 hre1 him1
  rw [hstep]
  refine ⟨by rw [hbpos], ?_, ?_, ?_, ?_⟩
  · intro i hi
    rw [hbo i hi, hin1 i hi, hov1 i hi, add_zero]
  · intro i hi
    exact hbov i hi
  · rw [hbre]
    show sj.firSpecRe = st.firSpecRe
    exact hsre
  · rw [hbim]
    show sj.firSpecIm = st.firSpecIm
    exact hsim

/-- `Init` leaves position 0, clean buffers, and — because the default
kernel is the unit impulse at tap 0 — an identically-one cached kernel
spectrum on all `FFT_SIZE` bins. -/
theorem sfInit_spec (m : ℕ) :
    (sfInit m).pos = 0
    ∧ (∀ i, i < 2 ^ m → (sfInit m).overlapBuf i = 0)
    ∧ (∀ i, i < 2 ^ m → (sfInit m).outputBuf i = 0)
    ∧ (∀ k, k < 2 ^ (m + 1) → (sfInit m).firSpecRe k = 1)
    ∧ (∀ k, k < 2 ^ (m + 1) → (sfInit m).firSpecIm k = 0) := by
  have hpad : (fun i => if i < 2 ^ m then (if i = 0 then (1 : ℝ) else 0) else 0)
      = fun i : ℕ => if i = 0 then (1 : ℝ) else 0 := by
    funext i
    by_cases hi : i = 0
    · rw [hi, if_pos (by positivity)]
    · by_cases h2 : i < 2 ^ m
      · rw [if_pos h2]
      · rw [if_neg h2, if_neg hi]
  refine ⟨rfl, fun i _ => rfl, fun i _ => rfl, ?_, ?_⟩
  · intro k hk
    show (Forward (m + 1)
      (fun i => if i < 2 ^ m then (if i = 0 then (1 : ℝ) else 0) else 0) k).re = 1
    rw [hpad, Forward_delta (m + 1) k hk]
    norm_num
  · intro k hk
    show (Forward (m + 1)
      (fun i => if i < 2 ^ m then (if i = 0 then (1 : ℝ) else 0) else 0) k).im = 0
    rw [hpad, Forward_delta (m + 1) k hk]
    norm_num

/-- Block-start invariant for the default-kernel filter: after `k` complete
blocks, the machine is at position 0 with a clean overlap and the output
buffer holding block `k-1`'s input (or zero before the first block). -/
theorem sfStart (m : ℕ) (u : ℕ → ℝ) :
    ∀ k, (sfRun m (sfInit m) u (k * 2 ^ m)).pos = 0
    ∧ (∀ i, i < 2 ^ m → (sfRun m (sfInit m) u (k * 2 ^ m)).overlapBuf i = 0)
    ∧ (∀ i, i < 2 ^ m → (sfRun m (sfInit m) u (k * 2 ^ m)).outputBuf i
        = if k = 0 then 0 else u ((k - 1) * 2 ^ m + i))
    ∧ (∀ b, b < 2 ^ (m + 1) → (sfRun m (sfInit m) u (k * 2 ^ m)).firSpecRe b = 1)
    ∧ (∀ b, b < 2 ^ (m + 1) → (sfRun m (sfInit m) u (k * 2 ^ m)).firSpecIm b = 0) := by
  intro k
  induction k with
  | zero =>
    obtain ⟨h1, h2, h3, h4, h5⟩ := sfInit_spec m
    rw [Nat.zero_mul]
    exact ⟨h1, h2, fun i hi => by rw [if_pos rfl]; exact h3 i hi, h4, h5⟩
  | succ k ih =>
    have hshift : sfRun m (sfInit m) u ((k + 1) * 2 ^ m)
        = sfSteps m (sfRun m (sfInit m) u (k * 2 ^ m))
            (fun i => u (k * 2 ^ m + i)) (2 ^ m) := by
      rw [show (k + 1) * 2 ^ m = k * 2 ^ m + 2 ^ m from by ring]
      exact sfRun_shift m (sfInit m) u (k * 2 ^ m) (2 ^ m)
    obtain ⟨hp, ho, _, hre, him⟩ := ih
    obtain ⟨hp', hout', hov', hre', him'⟩ :=
      sfCycleEnd m _ (fun i => u (k * 2 ^ m + i)) hp ho hre him
    rw [hshift]
    refine ⟨hp', hov', ?_, ?_, ?_⟩
    · intro i hi
      rw [hout' i hi, if_neg (Nat.succ_ne_zero k)]
      simp
    · intro b hb
      rw [hre']
      exact hre b hb
    · intro b hb
      rw [him']
      exact him b hb

/-- The default-kernel filter's exact output: zero for the first `L`
samples, then the input delayed by exactly `L = FIR_LENGTH` samples. -/
theorem sfOut_eq (m : ℕ) (u : ℕ → ℝ) (n : ℕ) :
    sfOut m (sfInit m) u n = if n < 2 ^ m then 0 else u (n - 2 ^ m) := by
  have hLpos : (0 : ℕ) < 2 ^ m := by positivity
  have hj : n % 2 ^ m < 2 ^ m := Nat.mod_lt n hLpos
  have hkj : n = n / 2 ^ m * 2 ^ m + n % 2 ^ m := by
    rw [Nat.div_add_mod' n (2 ^ m)]
  obtain ⟨hp, ho, hout, _, _⟩ := sfStart m u (n / 2 ^ m)
  have hrun : sfRun m (sfInit m) u n
      = sfSteps m (sfRun m (sfInit m) u (n / 2 ^ m * 2 ^ m))
          (fun i => u (n / 2 ^ m * 2 ^ m + i)) (n % 2 ^ m) := by
    conv_lhs => rw [hkj]
    exact sfRun_shift m (sfInit m) u _ _
  obtain ⟨hmp, _, hmout, _, _, _⟩ :=
    sfMid m _ (fun i => u (n / 2 ^ m * 2 ^ m + i)) hp ho (n % 2 ^ m) hj
  rw [sfOut, sfStep_out, hrun, hmp]
  rw [hmout _ hj, if_neg (lt_irrefl _), hout _ hj]
  by_cases hk : n / 2 ^ m = 0
  · have hn : n < 2 ^ m := by
      rw [Nat.div_eq_zero_iff hLpos] at hk
      exact hk
    rw [if_pos hk, if_pos hn]
  · have hk1 : 1 ≤ n / 2 ^ m := Nat.pos_of_ne_zero hk
    have hn : ¬ (n < 2 ^ m) := by
      intro habs
      exact hk (Nat.div_eq_of_lt habs)
    rw [if_neg hk, if_neg hn]
    congr 1
    have hmul : (n / 2 ^ m - 1) * 2 ^ m + 2 ^ m = n / 2 ^ m * 2 ^ m := by
      obtain ⟨k', hk'⟩ : ∃ k', n / 2 ^ m = k' + 1 := ⟨n / 2 ^ m - 1, by omega⟩
      rw [hk', Nat.add_sub_cancel]
      ring
    omega

/-! ## Claim C6 -/

/-- C6: with the spectral filter's default FIR kernel (unity at tap 0, all
other taps zero, as set by `Init`), for every input stream the output
equals the input delayed by exactly `FIR_LENGTH` samples: the first
`FIR_LENGTH` outputs are zero, and output `n ≥ FIR_LENGTH` equals input
`n - FIR_LENGTH` (exactly, in real arithmetic). -/
theorem claim_C6_dry_delay (m : ℕ) (u : ℕ → ℝ) (n : ℕ) :
    (n < 2 ^ m → sfOut m (sfInit m) u n = 0)
    ∧ (2 ^ m ≤ n → sfOut m (sfInit m) u n = u (n - 2 ^ m)) := by
  constructor
  · intro hn
    rw [sfOut_eq, if_pos hn]
  · intro hn
    rw [sfOut_eq, if_neg (by omega)]

theorem claim_C6_dry_delay_witness :
    ((0 : ℕ) < 2 ^ 0 ∧ sfOut 0 (sfInit 0) (fun j => (j : ℝ)) 0 = 0)
    ∧ (2 ^ 0 ≤ 1 ∧ sfOut 0 (sfInit 0) (fun j => (j : ℝ)) 1
        = ((1 - 2 ^ 0 : ℕ) : ℝ)) :=
  ⟨⟨by norm_num, (claim_C6_dry_delay 0 (fun j => (j : ℝ)) 0).1 (by norm_num)⟩,
    ⟨by norm_num, (claim_C6_dry_delay 0 (fun j => (j : ℝ)) 1).2 (by norm_num)⟩⟩

/-! ## Crosstalk canceller (`crosstalk_canceller.h`)

Per-bin regularized 2×2 inversion from `ComputeInverseFilters`
(lines 225-312): the bin's HRIR spectra `c11, c12, c21, c22` and the real
regularization `β` produce `A = CᴴC + βI`, its determinant, the floored
squared determinant magnitude, `A⁻¹` via the adjugate, and `H = A⁻¹Cᴴ`.
`ComplexMul` is complex multiplication; `β` is added to the real parts of
`a11`, `a22` only (it is real). -/

def ctcA11 (c11 _c12 c21 _c22 : ℂ) (β : ℝ) : ℂ :=
  (starRingEnd ℂ) c11 * c11 + (starRingEnd ℂ) c21 * c21 + (β : ℂ)

def ctcA12 (c11 c12 c21 c22 : ℂ) : ℂ :=
  (starRingEnd ℂ) c11 * c12 + (starRingEnd ℂ) c21 * c22

def ctcA21 (c11 c12 c21 c22 : ℂ) : ℂ :=
  (starRingEnd ℂ) c12 * c11 + (starRingEnd ℂ) c22 * c21

def ctcA22 (_c11 c12 _c21 c22 : ℂ) (β : ℝ) : ℂ :=
  (starRingEnd ℂ) c12 * c12 + (starRingEnd ℂ) c22 * c22 + (β : ℂ)

/-- `det = a11*a22 - a12*a21` (lines 267-272). -/
def ctcDet (c11 c12 c21 c22 : ℂ) (β : ℝ) : ℂ :=
  ctcA11 c11 c12 c21 c22 β * ctcA22 c11 c12 c21 c22 β
    - ctcA12 c11 c12 c21 c22 * ctcA21 c11 c12 c21 c22

/-- The division denominator `det_mag_sq = det_r² + det_i²`, floored at
`1e-10` (lines 275-277). -/
def ctcDen (c11 c12 c21 c22 : ℂ) (β : ℝ) : ℝ :=
  if (ctcDet c11 c12 c21 c22 β).re ^ 2 + (ctcDet c11 c12 c21 c22 β).im ^ 2 < 1e-10
  then 1e-10
  else (ctcDet c11 c12 c21 c22 β).re ^ 2 + (ctcDet c11 c12 c21 c22 β).im ^ 2

/-- `inv_det = (det_r, -det_i) / det_mag_sq` (lines 278-279). -/
def ctcInvDet (c11 c12 c21 c22 : ℂ) (β : ℝ) : ℂ :=
  (starRingEnd ℂ) (ctcDet c11 c12 c21 c22 β) / ((ctcDen c11 c12 c21 c22 β : ℝ) : ℂ)

/-- `A_inv = [a22, -a12; -a21, a11] * inv_det` (lines 282-286). -/
def ctcAi11 (c11 c12 c21 c22 : ℂ) (β : ℝ) : ℂ :=
  ctcA22 c11 c12 c21 c22 β * ctcInvDet c11 c12 c21 c22 β

def ctcAi12 (c11 c12 c21 c22 : ℂ) (β : ℝ) : ℂ :=
  -ctcA12 c11 c12 c21 c22 * ctcInvDet c11 c12 c21 c22 β

def ctcAi21 (c11 c12 c21 c22 : ℂ) (β : ℝ) : ℂ :=
  -ctcA21 c11 c12 c21 c22 * ctcInvDet c11 c12 c21 c22 β

def ctcAi22 (c11 c12 c21 c22 : ℂ) (β : ℝ) : ℂ :=
  ctcA11 c11 c12 c21 c22 β * ctcInvDet c11 c12 c21 c22 β

/-- `H = A_inv * Cᴴ` (lines 288-311). -/
def ctcH11 (c11 c12 c21 c22 : ℂ) (β : ℝ) : ℂ :=
  ctcAi11 c11 c12 c21 c22 β * (starRingEnd ℂ) c11
    + ctcAi12 c11 c12 c21 c22 β * (starRingEnd ℂ) c12

def ctcH12 (c11 c12 c21 c22 : ℂ) (β : ℝ) : ℂ :=
  ctcAi11 c11 c12 c21 c22 β * (starRingEnd ℂ) c21
    + ctcAi12 c11 c12 c21 c22 β * (starRingEnd ℂ) c22

def ctcH21 (c11 c12 c21 c22 : ℂ) (β : ℝ) : ℂ :=
  ctcAi21 c11 c12 c21 c22 β * (starRingEnd ℂ) c11
    + ctcAi22 c11 c12 c21 c22 β * (starRingEnd ℂ) c12

def ctcH22 (c11 c12 c21 c22 : ℂ) (β : ℝ) : ℂ :=
  ctcAi21 c11 c12 c21 c22 β * (starRingEnd ℂ) c21
    + ctcAi22 c11 c12 c21 c22 β * (starRingEnd ℂ) c22

/-! `ProcessBlock` (lines 327-377): pad each input channel to
`FFT_SIZE = 2·HRIR_LENGTH`, transform, apply `H` as a per-bin 2×2
matrix-vector product, and inverse-transform.  `HRIR_LENGTH = 2^m`,
`FFT_SIZE = 2^(m+1)`. -/

def ctcPad (m : ℕ) (x : ℕ → ℝ) : ℕ → ℝ := fun i => if i < 2 ^ m then x i else 0

/-- `out_L` spectrum: `H11·in_L + H12·in_R` per bin (lines 347-354). -/
def ctcWorkL (m : ℕ) (H11 H12 : ℕ → ℂ) (lIn rIn : ℕ → ℝ) : ℕ → ℂ := fun k =>
  H11 k * Forward (m + 1) (ctcPad m lIn) k + H12 k * Forward (m + 1) (ctcPad m rIn) k

/-- `out_R` spectrum: `H21·in_L + H22·in_R` per bin (lines 356-362). -/
def ctcWorkR (m : ℕ) (H21 H22 : ℕ → ℂ) (lIn rIn : ℕ → ℝ) : ℕ → ℂ := fun k =>
  H21 k * Forward (m + 1) (ctcPad m lIn) k + H22 k * Forward (m + 1) (ctcPad m rIn) k

/-- The left-channel time block after the inverse FFT (line 367). -/
def ctcLeftTime (m : ℕ) (H11 H12 : ℕ → ℂ) (lIn rIn : ℕ → ℝ) : ℕ → ℝ :=
  Inverse (m + 1) (fun k => (ctcWorkL m H11 H12 lIn rIn k).re)
    (fun k => (ctcWorkL m H11 H12 lIn rIn k).im)

/-- The right-channel time block after the inverse FFT (line 368). -/
def ctcRightTime (m : ℕ) (H21 H22 : ℕ → ℂ) (lIn rIn : ℕ → ℝ) : ℕ → ℝ :=
  Inverse (m + 1) (fun k => (ctcWorkR m H21 H22 lIn rIn k).re)
    (fun k => (ctcWorkR m H21 H22 lIn rIn k).im)

theorem abs_muladd_le (p q r s : ℂ) (a b : ℝ) (hp : Complex.abs p ≤ a)
    (hq : Complex.abs q ≤ a) (hr : Complex.abs r ≤ b) (hs : Complex.abs s ≤ b) :
    Complex.abs (p * r + q * s) ≤ 2 * (a * b) := by
  have ha : 0 ≤ a := le_trans (Complex.abs.nonneg p) hp
  calc Complex.abs (p * r + q * s)
      ≤ Complex.abs (p * r) + Complex.abs (q * s) := Complex.abs.add_le _ _
  _ = Complex.abs p * Complex.abs r + Complex.abs q * Complex.abs s := by
      rw [map_mul, map_mul]
  _ ≤ a * b + a * b :=
      add_le_add (mul_le_mul hp hr (Complex.abs.nonneg r) ha)
        (mul_le_mul hq hs (Complex.abs.nonneg s) ha)
  _ = 2 * (a * b) := by ring

theorem ctcDen_ge (c11 c12 c21 c22 : ℂ) (β : ℝ) :
    (1e-10 : ℝ) ≤ ctcDen c11 c12 c21 c22 β ∧ 0 < ctcDen c11 c12 c21 c22 β := by
  unfold ctcDen
  by_cases hc : (ctcDet c11 c12 c21 c22 β).re ^ 2 + (ctcDet c11 c12 c21 c22 β).im ^ 2 < 1e-10
  · rw [if_pos hc]
    norm_num
  · rw [if_neg hc]
    push_neg at hc
    constructor
    · exact hc
    · calc (0 : ℝ) < 1e-10 := by norm_num
      _ ≤ _ := hc

/-! ## Claim C7 -/

/-- C7: in the crosstalk canceller's per-bin inverse-filter computation,
the squared determinant magnitude used as the division denominator is
floored at `1e-10` (so it is positive and the division is guarded), every
entry of the cached inverse-filter matrix `H` is bounded — hence a
well-defined (finite) value — whenever the HRIR spectra and regularization
are bounded (by any `B`, including at degenerate speaker angles), and the
per-block output of `ProcessBlock` is bounded for every bounded stereo
input block given bounded `H`. -/
theorem claim_C7_det_floor (c11 c12 c21 c22 : ℂ) (β : ℝ) :
    ((1e-10 : ℝ) ≤ ctcDen c11 c12 c21 c22 β ∧ 0 < ctcDen c11 c12 c21 c22 β)
    ∧ (∀ B : ℝ, Complex.abs c11 ≤ B → Complex.abs c12 ≤ B →
        Complex.abs c21 ≤ B → Complex.abs c22 ≤ B → |β| ≤ B →
          Complex.abs (ctcH11 c11 c12 c21 c22 β) ≤ 4e10 * (2 * B ^ 2 + B) ^ 3 * B
          ∧ Complex.abs (ctcH12 c11 c12 c21 c22 β) ≤ 4e10 * (2 * B ^ 2 + B) ^ 3 * B
          ∧ Complex.abs (ctcH21 c11 c12 c21 c22 β) ≤ 4e10 * (2 * B ^ 2 + B) ^ 3 * B
          ∧ Complex.abs (ctcH22 c11 c12 c21 c22 β) ≤ 4e10 * (2 * B ^ 2 + B) ^ 3 * B)
    ∧ (∀ (m : ℕ) (C D : ℝ) (lIn rIn : ℕ → ℝ) (H11 H12 H21 H22 : ℕ → ℂ),
        (∀ i, |lIn i| ≤ C) → (∀ i, |rIn i| ≤ C) →
        (∀ k, Complex.abs (H11 k) ≤ D) → (∀ k, Complex.abs (H12 k) ≤ D) →
        (∀ k, Complex.abs (H21 k) ≤ D) → (∀ k, Complex.abs (H22 k) ≤ D) →
        ∀ i, |ctcLeftTime m H11 H12 lIn rIn i| ≤ 2 * (D * (2 ^ (m + 1) * C))
          ∧ |ctcRightTime m H21 H22 lIn rIn i| ≤ 2 * (D * (2 ^ (m + 1) * C))) := by
  obtain ⟨hden, hdenpos⟩ := ctcDen_ge c11 c12 c21 c22 β
  refine ⟨⟨hden, hdenpos⟩, ?_, ?_⟩
  · intro B h11 h12 h21 h22 hβ
    have hB0 : 0 ≤ B := le_trans (Complex.abs.nonneg c11) h11
    have hconj : ∀ z : ℂ, Complex.abs ((starRingEnd ℂ) z) = Complex.abs z :=
      fun z => Complex.abs_conj z
    have ha11 : Complex.abs (ctcA11 c11 c12 c21 c22 β) ≤ 2 * B ^ 2 + B := by
      unfold ctcA11
      calc Complex.abs ((starRingEnd ℂ) c11 * c11 + (starRingEnd ℂ) c21 * c21 + (β : ℂ))
          ≤ Complex.abs ((starRingEnd ℂ) c11 * c11 + (starRingEnd ℂ) c21 * c21)
            + Complex.abs ((β : ℂ)) := Complex.abs.add_le _ _
      _ ≤ 2 * (B * B) + |β| := by
          refine add_le_add ?_ ?_
          · exact abs_muladd_le _ _ _ _ B B (by rw [hconj]; exact h11)
              (by rw [hconj]; exact h21) h11 h21
          · rw [Complex.abs_ofReal]
      _ ≤ 2 * B ^ 2 + B := by nlinarith
    have ha22 : Complex.abs (ctcA22 c11 c12 c21 c22 β) ≤ 2 * B ^ 2 + B := by
      unfold ctcA22
      calc Complex.abs ((starRingEnd ℂ) c12 * c12 + (starRingEnd ℂ) c22 * c22 + (β : ℂ))
          ≤ Complex.abs ((starRingEnd ℂ) c12 * c12 + (starRingEnd ℂ) c22 * c22)
            + Complex.abs ((β : ℂ)) := Complex.abs.add_le _ _
      _ ≤ 2 * (B * B) + |β| := by
          refine add_le_add ?_ ?_
          · exact abs_muladd_le _ _ _ _ B B (by rw [hconj]; exact h12)
              (by rw [hconj]; exact h22) h12 h22
          · rw [Complex.abs_ofReal]
      _ ≤ 2 * B ^ 2 + B := by nlinarith
    have ha12 : Complex.abs (ctcA12 c11 c12 c21 c22) ≤ 2 * B ^ 2 + B := by
      unfold ctcA12
      calc Complex.abs ((starRingEnd ℂ) c11 * c12 + (starRingEnd ℂ) c21 * c22)
          ≤ 2 * (B * B) := abs_muladd_le _ _ _ _ B B (by rw [hconj]; exact h11)
            (by rw [hconj]; exact h21) h12 h22
      _ ≤ 2 * B ^ 2 + B := by nlinarith
    have ha21 : Complex.abs (ctcA21 c11 c12 c21 c22) ≤ 2 * B ^ 2 + B := by
      unfold ctcA21
      calc Complex.abs ((starRingEnd ℂ) c12 * c11 + (starRingEnd ℂ) c22 * c21)
          ≤ 2 * (B * B) := abs_muladd_le _ _ _ _ B B (by rw [hconj]; exact h12)
            (by rw [hconj]; exact h22) h11 h21
      _ ≤ 2 * B ^ 2 + B := by nlinarith
    have hA0 : (0 : ℝ) ≤ 2 * B ^ 2 + B := by nlinarith
    have hdet : Complex.abs (ctcDet c11 c12 c21 c22 β)
        ≤ 2 * ((2 * B ^ 2 + B) * (2 * B ^ 2 + B)) := by
      unfold ctcDet
      calc Complex.abs (ctcA11 c11 c12 c21 c22 β * ctcA22 c11 c12 c21 c22 β
              - ctcA12 c11 c12 c21 c22 * ctcA21 c11 c12 c21 c22)
          ≤ Complex.abs (ctcA11 c11 c12 c21 c22 β * ctcA22 c11 c12 c21 c22 β)
            + Complex.abs (ctcA12 c11 c12 c21 c22 * ctcA21 c11 c12 c21 c22) :=
            Complex.abs.sub_le_add _ _
      _ = Complex.abs (ctcA11 c11 c12 c21 c22 β) * Complex.abs (ctcA22 c11 c12 c21 c22 β)
            + Complex.abs (ctcA12 c11 c12 c21 c22) * Complex.abs (ctcA21 c11 c12 c21 c22) := by
            rw [map_mul, map_mul]
      _ ≤ (2 * B ^ 2 + B) * (2 * B ^ 2 + B) + (2 * B ^ 2 + B) * (2 * B ^ 2 + B) :=
            add_le_add (mul_le_mul ha11 ha22 (Complex.abs.nonneg _) hA0)
              (mul_le_mul ha12 ha21 (Complex.abs.nonneg _) hA0)
      _ = 2 * ((2 * B ^ 2 + B) * (2 * B ^ 2 + B)) := by ring
    have hinv : Complex.abs (ctcInvDet c11 c12 c21 c22 β)
        ≤ 2 * ((2 * B ^ 2 + B) * (2 * B ^ 2 + B)) * 1e10 := by
      unfold ctcInvDet
      rw [map_div₀, hconj, Complex.abs_ofReal, abs_of_pos hdenpos]
      rw [div_le_iff₀ hdenpos]
      nlinarith [hdet, hden, sq_nonneg (2 * B ^ 2 + B),
        mul_nonneg (mul_nonneg hA0 hA0) (le_of_lt hdenpos)]
    have hai : ∀ z : ℂ, Complex.abs z ≤ 2 * B ^ 2 + B →
        Complex.abs (z * ctcInvDet c11 c12 c21 c22 β)
          ≤ (2 * B ^ 2 + B) * (2 * ((2 * B ^ 2 + B) * (2 * B ^ 2 + B)) * 1e10) := by
      intro z hz
      rw [map_mul]
      exact mul_le_mul hz hinv (Complex.abs.nonneg _) hA0
    have hai11 := hai _ ha22
    have hai12 := hai _ (by rw [Complex.abs.map_neg]; exact ha12)
    have hai21 := hai _ (by rw [Complex.abs.map_neg]; exact ha21)
    have hai22 := hai _ ha11
    have hHbound : ∀ p q : ℂ, ∀ r s : ℂ,
        Complex.abs p ≤ (2 * B ^ 2 + B) * (2 * ((2 * B ^ 2 + B) * (2 * B ^ 2 + B)) * 1e10) →
        Complex.abs q ≤ (2 * B ^ 2 + B) * (2 * ((2 * B ^ 2 + B) * (2 * B ^ 2 + B)) * 1e10) →
        Complex.abs r ≤ B → Complex.abs s ≤ B →
        Complex.abs (p * r + q * s) ≤ 4e10 * (2 * B ^ 2 + B) ^ 3 * B := by
      intro p q r s hp hq hr hs
      calc Complex.abs (p * r + q * s)
          ≤ 2 * ((2 * B ^ 2 + B) * (2 * ((2 * B ^ 2 + B) * (2 * B ^ 2 + B)) * 1e10) * B) :=
            abs_muladd_le _ _ _ _ _ _ hp hq hr hs
      _ = 4e10 * (2 * B ^ 2 + B) ^ 3 * B := by ring
    refine ⟨?_, ?_, ?_, ?_⟩
    · exact hHbound _ _ _ _ hai11 hai12 (by rw [hconj]; exact h11) (by rw [hconj]; exact h12)
    · exact hHbound _ _ _ _ hai11 hai12 (by rw [hconj]; exact h21) (by rw [hconj]; exact h22)
    · exact hHbound _ _ _ _ hai21 hai22 (by rw [hconj]; exact h11) (by rw [hconj]; exact h12)
    · exact hHbound _ _ _ _ hai21 hai22 (by rw [hconj]; exact h21) (by rw [hconj]; exact h22)
  · intro m C D lIn rIn H11 H12 H21 H22 hL hR h11 h12 h21 h22 i
    have hC0 : 0 ≤ C := le_trans (abs_nonneg (lIn 0)) (hL 0)
    have hpadL : ∀ j, |ctcPad m lIn j| ≤ C := by
      intro j
      unfold ctcPad
      by_cases hj : j < 2 ^ m
      · rw [if_pos hj]
        exact hL j
      · rw [if_neg hj]
        simpa using hC0
    have hpadR : ∀ j, |ctcPad m rIn j| ≤ C := by
      intro j
      unfold ctcPad
      by_cases hj : j < 2 ^ m
      · rw [if_pos hj]
        exact hR j
      · rw [if_neg hj]
        simpa using hC0
    have hFL : ∀ k, Complex.abs (Forward (m + 1) (ctcPad m lIn) k) ≤ 2 ^ (m + 1) * C :=
      Forward_bound (m + 1) _ C hpadL
    have hFR : ∀ k, Complex.abs (Forward (m + 1) (ctcPad m rIn) k) ≤ 2 ^ (m + 1) * C :=
      Forward_bound (m + 1) _ C hpadR
    have hWL : ∀ k, Complex.abs (ctcWorkL m H11 H12 lIn rIn k)
        ≤ 2 * (D * (2 ^ (m + 1) * C)) := by
      intro k
      exact abs_muladd_le _ _ _ _ D (2 ^ (m + 1) * C) (h11 k) (h12 k) (hFL k) (hFR k)
    have hWR : ∀ k, Complex.abs (ctcWorkR m H21 H22 lIn rIn k)
        ≤ 2 * (D * (2 ^ (m + 1) * C)) := by
      intro k
      exact abs_muladd_le _ _ _ _ D (2 ^ (m + 1) * C) (h21 k) (h22 k) (hFL k) (hFR k)
    constructor
    · apply Inverse_bound
      intro k
      rw [Complex.re_add_im]
      exact hWL k
    · apply Inverse_bound
      intro k
      rw [Complex.re_add_im]
      exact hWR k

theorem claim_C7_det_floor_witness :
    ((1e-10 : ℝ) ≤ ctcDen 0 0 0 0 0)
    ∧ Complex.abs (ctcH11 0 0 0 0 0) ≤ 4e10 * (2 * (0 : ℝ) ^ 2 + 0) ^ 3 * 0
    ∧ |ctcLeftTime 0 (fun _ => 0) (fun _ => 0) (fun _ => 0) (fun _ => 0) 0|
        ≤ 2 * ((0 : ℝ) * (2 ^ (0 + 1) * 0)) := by
  refine ⟨(claim_C7_det_floor 0 0 0 0 0).1.1, ?_, ?_⟩
  · exact ((claim_C7_det_floor 0 0 0 0 0).2.1 0 (by simp) (by simp) (by simp) (by simp)
      (by simp)).1
  · exact (((claim_C7_det_floor 0 0 0 0 0).2.2 0 0 0 (fun _ => 0) (fun _ => 0)
      (fun _ => 0) (fun _ => 0) (fun _ => 0) (fun _ => 0)
      (by simp) (by simp) (by simp) (by simp) (by simp) (by simp)) 0).1

end Daisysp
